import Mathlib

/-!
Shallow embedding of the SLDC (ECMA-321) record decoder from `decompress.go`
of the `sldc` Go package, together with theorems checking the specification's
claims against the code.

Modelling conventions:
* Go `[]byte` input data is a `List Nat` (a byte has value `< 256`; lemmas that
  need this carry it as a hypothesis, since the Go `byte` type guarantees it).
* Go `uint32` arithmetic: all shifts that could overflow carry an explicit
  `% 4294967296` (`2 ^ 32`), mirroring the wraparound of `uint32`.
* A Go runtime panic from an out-of-range slice index (which aborts the
  process) is modelled as an explicit `panicked` outcome, distinct from a
  returned `error`.
* The unbounded Go `for {}` loop of `Decompress` is run on fuel; running out
  of fuel yields `none`.  Theorem `decompress_terminates` (claim C9) shows the
  chosen fuel is never exhausted.
-/

set_option maxRecDepth 16384

/-- Input implements an input stream: the raw data, the byte offset `ofs` of
the cursor, and `bits`, the number of not-yet-consumed low bits of the byte at
`ofs` (decompress.go, `type Input struct`). -/
structure Input where
  data : List Nat
  ofs : Nat
  bits : Nat
deriving DecidableEq, Repr

/-- NewInput creates a new input object (decompress.go `NewInput`). -/
def NewInput (data : List Nat) : Input := ⟨data, 0, 8⟩

/-- Outcome of `Input.Get`: the Go function returns `(val uint32, err error)`;
additionally the unchecked slice access `in.data[in.ofs]` aborts the process
when `in.ofs` is out of range, modelled by `panicked`. -/
inductive GetRes where
  | ok (val : Nat) (i : Input)
  | trunc (val : Nat) (i : Input)
  | panicked
deriving DecidableEq, Repr

/-- The `for bits >= 8 { ... }` byte loop of `Input.Get`, followed by the
final `if bits > 0 { ... }` partial-byte step (decompress.go `Input.Get`,
after the first byte has been consumed; `ofs` has been incremented and the
in-structure bit count is 8).  Recursion is structural on the `bits + 8`
pattern so that one step of the Go loop consumes one layer. -/
def getLoop (data : List Nat) (val ofs : Nat) : Nat → GetRes
  | bits + 8 =>
    if data.length ≤ ofs then .trunc val ⟨data, ofs, 8⟩
    else getLoop data ((val <<< 8) % 4294967296 ||| data.getD ofs 0) (ofs + 1) bits
  | bits =>
    if 0 < bits then
      if data.length ≤ ofs then .trunc val ⟨data, ofs, 8⟩
      else
        .ok ((val <<< bits) % 4294967296 |||
              (data.getD ofs 0 >>> (8 - bits) &&& (0xff >>> (8 - bits))))
          ⟨data, ofs, 8 - bits⟩
    else .ok val ⟨data, ofs, 8⟩

/-- Get gets the specified number of bits from the input (decompress.go
`Input.Get`).  The first access `in.data[in.ofs]` is not bounds-checked in the
source, hence the `panicked` outcomes. -/
def Input.Get (i : Input) (bits : Nat) : GetRes :=
  if i.bits > bits then
    if i.data.length ≤ i.ofs then .panicked
    else
      .ok (i.data.getD i.ofs 0 >>> (i.bits - bits) &&& (0xff >>> (8 - bits)))
        ⟨i.data, i.ofs, i.bits - bits⟩
  else
    if i.data.length ≤ i.ofs then .panicked
    else
      getLoop i.data (i.data.getD i.ofs 0 &&& (0xff >>> (8 - i.bits)))
        (i.ofs + 1) (bits - i.bits)

/-- Peek returns the specified number of bits without updating the input
position (decompress.go `Input.Peek`); the saved offset and bit count are
restored also on error, while a runtime panic propagates. -/
def Input.Peek (i : Input) (bits : Nat) : GetRes :=
  match i.Get bits with
  | .ok v _ => .ok v i
  | .trunc v _ => .trunc v i
  | .panicked => .panicked

/-- IsCtrl tests if the next input is a control word (decompress.go
`Input.IsCtrl`): `err == nil && val == 0x1ff`.  `none` models the propagated
runtime panic. -/
def Input.IsCtrl (i : Input) : Option Bool :=
  match i.Peek 9 with
  | .ok v _ => some (v == 0x1ff)
  | .trunc _ _ => some false
  | .panicked => none

/-- Outcome of `Input.Ctrl` (decompress.go returns `(Ctrl, error)`; the
control word is its 4-bit numeric code, `CtrlEOR = 4`). -/
inductive CtrlRes where
  | ok (c : Nat) (i : Input)
  | err (i : Input)
  | panicked
deriving DecidableEq, Repr

/-- Ctrl gets the next control word (decompress.go `Input.Ctrl`): read 9 bits;
on error or marker mismatch return `CtrlEOR` (= 4) together with the error,
otherwise read the 4 code bits. -/
def Input.Ctrl (i : Input) : CtrlRes :=
  match i.Get 9 with
  | .panicked => .panicked
  | .trunc _ i2 => .err i2
  | .ok v i2 =>
    if v ≠ 0x1ff then .ok 4 i2
    else
      match i2.Get 4 with
      | .panicked => .panicked
      | .trunc _ i3 => .err i3
      | .ok c i3 => .ok c i3

/-- The `for (in.ofs%4) != 0 && in.ofs < len(in.data) { in.ofs++ }` loop of
`Input.Align`.  The loop body runs at most 3 times (each step moves `ofs`
closer to the next multiple of 4), so a structural fuel of 3 is exact. -/
def alignLoop (len : Nat) (ofs : Nat) : Nat → Nat
  | 0 => ofs
  | fuel + 1 =>
    if ofs % 4 ≠ 0 ∧ ofs < len then alignLoop len (ofs + 1) fuel else ofs

/-- Align aligns input to the next four byte boundary (decompress.go
`Input.Align`).  Note that only the byte offset is moved; the intra-byte bit
count `bits` is left untouched by the source.  `none` is the
`ErrTruncatedInput` return. -/
def Input.Align (i : Input) : Option Input :=
  let o := alignLoop i.data.length i.ofs 3
  if o % 4 ≠ 0 then none else some ⟨i.data, o, i.bits⟩

/-- Bit position of the cursor, counted from the start of the stream: `ofs`
whole bytes plus the consumed high bits of the current byte. -/
def Input.pos (i : Input) : Nat := 8 * i.ofs + (8 - i.bits)

/-- History implements the 1024-byte circular input history (decompress.go
`type History struct`). -/
structure History where
  data : List Nat
  pos : Nat
deriving DecidableEq, Repr

/-- NewHistory creates a new history object: `make([]byte, 1024)`. -/
def NewHistory : History := ⟨List.replicate 1024 0, 0⟩

/-- Add adds a byte to the history at the write cursor, wrapping at the
capacity (decompress.go `History.Add`). -/
def History.Add (h : History) (b : Nat) : History :=
  let d := h.data.set h.pos b
  if h.pos + 1 ≥ d.length then ⟨d, 0⟩ else ⟨d, h.pos + 1⟩

/-- Outcome of `History.Get`: the Go function returns `(byte, int)` but calls
`panic` (process abort) on an out-of-range offset. -/
inductive HGetRes where
  | ok (b : Nat) (ofs : Int)
  | panicked
deriving DecidableEq, Repr

/-- Get gets the byte from the specified offset of the history and the next
offset, wrapped at the capacity; an offset outside `[0, len)` panics
(decompress.go `History.Get`). -/
def History.Get (h : History) (ofs : Int) : HGetRes :=
  if ofs < 0 ∨ (h.data.length : Int) ≤ ofs then .panicked
  else
    let b := h.data.getD ofs.toNat 0
    if (h.data.length : Int) ≤ ofs + 1 then .ok b 0 else .ok b (ofs + 1)

/-- Reset resets the history write cursor without clearing storage
(decompress.go `History.Reset`). -/
def History.Reset (h : History) : History := ⟨h.data, 0⟩

/-- Compression scheme (decompress.go `Scheme`; `Scheme1 = 1`, `Scheme2 = 2`). -/
inductive Scheme where
  | s1
  | s2
deriving DecidableEq, Repr

/-- Terminal outcomes of `Decompress`: the Go function returns
`([]byte, error)`.  `eof` is the `io.EOF` of a leading end marker; the two
panic outcomes distinguish the two process-aborting sites (the unchecked
slice read in `Input.Get`, and the displacement check in `History.Get`). -/
inductive Result where
  | ok (out : List Nat)
  | eof
  | truncated
  | invalidControl (c : Nat)
  | invalidMatchCount (n : Nat)
  | scheme2NotImplemented
  | panicIndex
  | panicDisplacement
deriving DecidableEq, Repr

/-- Decoder state threaded through the main loop of `Decompress`. -/
structure DState where
  input : Input
  scheme : Scheme
  history : History
  result : List Nat
deriving DecidableEq, Repr

/-- One loop iteration either continues with a new state or terminates. -/
inductive StepRes where
  | cont (d : DState)
  | done (r : Result)
deriving DecidableEq, Repr

/-- The `base` of the match count as a function of the number of leading ones
(the `switch ones` of decompress.go `Decompress`, copy-pointer branch). -/
def matchBase : Nat → Nat
  | 0 => 2
  | 1 => 4
  | 2 => 8
  | 3 => 16
  | _ => 32

/-- The number of extra match-count bits as a function of the number of
leading ones (same `switch ones`). -/
def matchExtraBits : Nat → Nat
  | 0 => 1
  | 1 => 2
  | 2 => 3
  | 3 => 4
  | _ => 8

/-- Outcome of reading the unary ones prefix. -/
inductive OnesRes where
  | ok (ones : Nat) (i : Input)
  | err
  | panicked
deriving DecidableEq, Repr

/-- The `for ones = 0; ones < 4; ones++` loop of the copy-pointer branch:
read single bits, stopping at the first 0 bit or after 4 ones.  The countdown
argument is the number of loop iterations left (started at 4); the returned
value is the number of 1 bits consumed. -/
def readOnes (i : Input) : Nat → OnesRes
  | 0 => .ok 0 i
  | fuel + 1 =>
    match i.Get 1 with
    | .panicked => .panicked
    | .trunc _ _ => .err
    | .ok v i2 =>
      if v = 0 then .ok 0 i2
      else
        match readOnes i2 fuel with
        | .ok k i3 => .ok (k + 1) i3
        | .err => .err
        | .panicked => .panicked

/-- Outcome of decoding a match count. -/
inductive MCRes where
  | ok (mc : Nat) (i : Input)
  | err
  | panicked
deriving DecidableEq, Repr

/-- Decode a copy pointer's match count: the unary ones prefix, then
`matchExtraBits ones` extra bits; `matchCount = base + extra` (decompress.go
`Decompress`, copy-pointer branch before the 271 check). -/
def readMatchCount (i : Input) : MCRes :=
  match readOnes i 4 with
  | .panicked => .panicked
  | .err => .err
  | .ok ones i2 =>
    match i2.Get (matchExtraBits ones) with
    | .panicked => .panicked
    | .trunc _ _ => .err
    | .ok extra i3 => .ok (matchBase ones + extra) i3

/-- The `for matchCount > 0` copy loop of `Decompress`: read a byte from the
history at the displacement, append it to the history and the output, continue
at the returned next offset.  `none` is the propagated `History.Get` panic. -/
def copyLoop (matchCount : Nat) (displacement : Int) (h : History)
    (result : List Nat) : Option (History × List Nat) :=
  match matchCount with
  | 0 => some (h, result)
  | n + 1 =>
    match h.Get displacement with
    | .panicked => none
    | .ok b d2 => copyLoop n d2 (h.Add b) (result ++ [b])

/-- The copy-pointer branch of `Decompress` after the leading 1 bit: match
count, 271 check, 10-bit displacement, copy loop. -/
def decodeCopy (sch : Scheme) (i : Input) (h : History) (result : List Nat) :
    StepRes :=
  match readMatchCount i with
  | .panicked => .done .panicIndex
  | .err => .done .truncated
  | .ok mc i2 =>
    if mc > 271 then .done (.invalidMatchCount mc)
    else
      match i2.Get 10 with
      | .panicked => .done .panicIndex
      | .trunc _ _ => .done .truncated
      | .ok disp i3 =>
        match copyLoop mc (disp : Int) h result with
        | none => .done .panicDisplacement
        | some (h2, res2) => .cont ⟨i3, sch, h2, res2⟩

/-- One iteration of the main loop of `Decompress` (decompress.go, the body of
the `for {}` loop): control-word dispatch, else one Scheme-1 data symbol. -/
def step (st : DState) : StepRes :=
  match st.input.IsCtrl with
  | none => .done .panicIndex
  | some true =>
    match st.input.Ctrl with
    | .panicked => .done .panicIndex
    | .err _ => .done .truncated
    | .ok c i2 =>
      if c = 0 then
        match i2.Align with
        | none => .done .truncated
        | some i3 => .cont { st with input := i3 }
      else if c = 1 then .cont { st with input := i2, scheme := .s1 }
      else if c = 2 then .cont { st with input := i2, scheme := .s2 }
      else if c = 4 then
        match i2.Align with
        | none => .done .truncated
        | some _ => .done (.ok st.result)
      else if c = 5 then
        .cont { st with input := i2, scheme := .s1, history := st.history.Reset }
      else if c = 6 then
        .cont { st with input := i2, scheme := .s2, history := st.history.Reset }
      else if c = 15 then
        if st.result = [] then .done .eof
        else .cont { st with input := i2 }
      else .done (.invalidControl c)
  | some false =>
    match st.scheme with
    | .s1 =>
      match st.input.Get 1 with
      | .panicked => .done .panicIndex
      | .trunc _ _ => .done .truncated
      | .ok v i2 =>
        if v = 0 then
          match i2.Get 8 with
          | .panicked => .done .panicIndex
          | .trunc _ _ => .done .truncated
          | .ok b i3 =>
            .cont { st with input := i3, history := st.history.Add b,
                            result := st.result ++ [b] }
        else decodeCopy st.scheme i2 st.history st.result
    | .s2 => .done .scheme2NotImplemented

/-- Iterate `step` on fuel; `none` means the fuel ran out (which
`decompress_terminates` shows cannot happen for the fuel used below). -/
def loop : Nat → DState → Option Result
  | 0, _ => none
  | fuel + 1, st =>
    match step st with
    | .done r => some r
    | .cont st2 => loop fuel st2

/-- Initial decoder state of `Decompress`: fresh input, Scheme 1, fresh
history, empty output. -/
def initState (data : List Nat) : DState :=
  ⟨NewInput data, .s1, NewHistory, []⟩

/-- Decompress decompresses the data (decompress.go `Decompress`).  Each loop
iteration that continues consumes at least 9 bits, so `data.length + 2`
iterations always suffice. -/
def Decompress (data : List Nat) : Option Result :=
  loop (data.length + 2) (initState data)

/-- Bit `p` of the byte stream `data`, MSB-first within each byte. -/
def bitAt (data : List Nat) (p : Nat) : Nat :=
  data.getD (p / 8) 0 / 2 ^ (7 - p % 8) % 2

/-- Value of the `n` bits of `data` starting at bit position `p`, MSB first. -/
def bitsVal (data : List Nat) (p : Nat) : Nat → Nat
  | 0 => 0
  | n + 1 => bitsVal data p n * 2 + bitAt data (p + n)

/-- The canonical `Input` whose cursor sits at bit position `p` of `data`. -/
def inputAt (data : List Nat) (p : Nat) : Input :=
  ⟨data, p / 8, 8 - p % 8⟩

/-- The 8 bits of a byte, MSB first. -/
def byteBits (b : Nat) : List Nat :=
  [b / 128 % 2, b / 64 % 2, b / 32 % 2, b / 16 % 2,
   b / 8 % 2, b / 4 % 2, b / 2 % 2, b % 2]

/-- A Scheme-1 literal data symbol: flag bit 0 followed by the byte's bits. -/
def litSymbol (b : Nat) : List Nat := 0 :: byteBits b

/-- The 13 bits of an EOR control word: the 9-bit all-ones marker followed by
the code `0100` (= 4 = `CtrlEOR`). -/
def eorSym : List Nat := [1, 1, 1, 1, 1, 1, 1, 1, 1, 0, 1, 0, 0]

/-- Pack a bit list (values `< 2`) into bytes, 8 bits per byte, MSB first;
an incomplete trailing chunk is dropped. -/
def pack : List Nat → List Nat
  | b0 :: b1 :: b2 :: b3 :: b4 :: b5 :: b6 :: b7 :: rest =>
    (b0 * 128 + b1 * 64 + b2 * 32 + b3 * 16 + b4 * 8 + b5 * 4 + b6 * 2 + b7)
      :: pack rest
  | _ => []

/-- Copy semantics in the words of the specification: read the byte at the
displacement from the history, append it to output and to history, advance
the displacement by one with wraparound at the capacity 1024, repeat. -/
def specCircularRead : History → Nat → Nat → List Nat
  | _, _, 0 => []
  | h, d, n + 1 =>
    let b := h.data.getD d 0
    b :: specCircularRead (h.Add b) ((d + 1) % 1024) n

/-! ### Arithmetic helper lemmas -/

theorem mask8 (n : Nat) (h : n ≤ 8) : 0xff >>> (8 - n) = 2 ^ n - 1 := by
  interval_cases n <;> rfl

theorem and_mask (x n : Nat) (h : n ≤ 8) :
    x &&& (0xff >>> (8 - n)) = x % 2 ^ n := by
  rw [mask8 n h, Nat.and_pow_two_sub_one_eq_mod]

theorem lor_disjoint (a b k : Nat) (h : b < 2 ^ k) :
    a <<< k ||| b = a * 2 ^ k + b := by
  rw [Nat.shiftLeft_eq, Nat.mul_comm a (2 ^ k), ← Nat.mul_add_lt_is_or h,
    Nat.mul_comm (2 ^ k) a]

theorem getD_lt_of_bound (l : List Nat) (c : Nat) (hc : 0 < c)
    (hb : ∀ b ∈ l, b < c) (n : Nat) : l.getD n 0 < c := by
  rcases Nat.lt_or_ge n l.length with h | h
  · rw [List.getD_eq_getElem?_getD, List.getElem?_eq_getElem h]
    exact hb _ (List.getElem_mem h)
  · rw [List.getD_eq_getElem?_getD, List.getElem?_eq_none h]
    simpa using hc

/-! ### Bit-stream value lemmas -/

theorem bitAt_lt (data : List Nat) (p : Nat) : bitAt data p < 2 :=
  Nat.mod_lt _ (by omega)

theorem bitsVal_lt (data : List Nat) (p : Nat) : ∀ n, bitsVal data p n < 2 ^ n
  | 0 => by simp [bitsVal]
  | n + 1 => by
    have h1 := bitsVal_lt data p n
    have h2 := bitAt_lt data (p + n)
    have : 2 ^ (n + 1) = 2 ^ n * 2 := by ring
    simp only [bitsVal]
    omega

theorem bitsVal_split (data : List Nat) (p m : Nat) :
    ∀ n, bitsVal data p (m + n) = bitsVal data p m * 2 ^ n + bitsVal data (p + m) n
  | 0 => by simp [bitsVal]
  | n + 1 => by
    have ih := bitsVal_split data p m n
    have hpow : 2 ^ (n + 1) = 2 ^ n * 2 := by ring
    show bitsVal data p (m + n + 1) = _
    simp only [bitsVal, ih, hpow]
    have : p + m + n = p + (m + n) := by omega
    rw [this]
    ring

theorem bitsVal_one (data : List Nat) (p : Nat) : bitsVal data p 1 = bitAt data p := by
  simp [bitsVal]

theorem bitsVal_succ_front (data : List Nat) (p n : Nat) :
    bitsVal data p (n + 1) = bitAt data p * 2 ^ n + bitsVal data (p + 1) n := by
  have := bitsVal_split data p 1 n
  rw [Nat.add_comm 1 n] at this
  rw [this, bitsVal_one]

theorem bitsVal_within_byte (data : List Nat) (p : Nat) :
    ∀ n, p % 8 + n ≤ 8 →
      bitsVal data p n = data.getD (p / 8) 0 / 2 ^ (8 - p % 8 - n) % 2 ^ n
  | 0, _ => by simp [bitsVal, Nat.mod_one]
  | n + 1, h => by
    have ih := bitsVal_within_byte data p n (by omega)
    have hdiv : (p + n) / 8 = p / 8 ∧ (p + n) % 8 = p % 8 + n := by omega
    simp only [bitsVal, ih, bitAt, hdiv.1, hdiv.2]
    set b := data.getD (p / 8) 0 with hb
    have e1 : 8 - p % 8 - (n + 1) = 7 - p % 8 - n := by omega
    have e2 : 8 - p % 8 - n = 7 - p % 8 - n + 1 := by omega
    have e3 : 7 - (p % 8 + n) = 7 - p % 8 - n := by omega
    rw [e1, e2, e3]
    set e := 7 - p % 8 - n with he
    have hdd : b / 2 ^ (e + 1) = b / 2 ^ e / 2 := by
      rw [Nat.div_div_eq_div_mul, pow_succ]
    rw [hdd]
    set y := b / 2 ^ e with hy
    have hmm : y % (2 * 2 ^ n) = y % 2 + 2 * (y / 2 % 2 ^ n) := Nat.mod_mul
    have hp : (2 : Nat) ^ (n + 1) = 2 * 2 ^ n := by ring
    rw [hp, hmm]
    ring

theorem bitsVal_byte (data : List Nat) (ofs : Nat) (hb : data.getD ofs 0 < 256) :
    bitsVal data (8 * ofs) 8 = data.getD ofs 0 := by
  have h := bitsVal_within_byte data (8 * ofs) 8 (by omega)
  have h1 : 8 * ofs % 8 = 0 := by omega
  have h2 : 8 * ofs / 8 = ofs := by omega
  rw [h]
  simp only [h1, h2]
  norm_num
  simpa using hb

theorem bitsVal_congr (data data2 : List Nat) (p p2 : Nat) :
    ∀ n, (∀ j, j < n → bitAt data (p + j) = bitAt data2 (p2 + j)) →
      bitsVal data p n = bitsVal data2 p2 n
  | 0, _ => by simp [bitsVal]
  | n + 1, h => by
    have ih := bitsVal_congr data data2 p p2 n (fun j hj => h j (by omega))
    simp only [bitsVal, ih, h n (by omega)]

theorem bitsVal_all_ones (data : List Nat) (p : Nat) :
    ∀ n, (∀ j, j < n → bitAt data (p + j) = 1) → bitsVal data p n = 2 ^ n - 1
  | 0, _ => by simp [bitsVal]
  | n + 1, h => by
    have ih := bitsVal_all_ones data p n (fun j hj => h j (by omega))
    have hp : (1 : Nat) ≤ 2 ^ n := Nat.one_le_two_pow
    simp only [bitsVal, ih, h n (by omega)]
    have : (2 : Nat) ^ (n + 1) = 2 ^ n * 2 := by ring
    omega

/-! ### Characterization of `Input.Get` -/

theorem getLoop_add8 (data : List Nat) (val ofs bits : Nat) :
    getLoop data val ofs (bits + 8) =
      if data.length ≤ ofs then .trunc val ⟨data, ofs, 8⟩
      else getLoop data ((val <<< 8) % 4294967296 ||| data.getD ofs 0)
        (ofs + 1) bits := rfl

theorem getLoop_small (data : List Nat) (val ofs bits : Nat) (h : bits < 8) :
    getLoop data val ofs bits =
      if 0 < bits then
        if data.length ≤ ofs then .trunc val ⟨data, ofs, 8⟩
        else
          .ok ((val <<< bits) % 4294967296 |||
                (data.getD ofs 0 >>> (8 - bits) &&& (0xff >>> (8 - bits))))
            ⟨data, ofs, 8 - bits⟩
      else .ok val ⟨data, ofs, 8⟩ := by
  interval_cases bits <;> rfl

theorem uint32_eq : (4294967296 : Nat) = 2 ^ 32 := by norm_num

theorem inputAt_eq (data : List Nat) (p ofs bits : Nat)
    (h1 : ofs = p / 8) (h2 : bits = 8 - p % 8) :
    (⟨data, ofs, bits⟩ : Input) = inputAt data p := by
  subst h1
  subst h2
  rfl

theorem getLoop_spec (data : List Nat) (hbytes : ∀ b ∈ data, b < 256) :
    ∀ rem val ofs, 8 * ofs + rem ≤ 8 * data.length → rem ≤ 32 →
      val < 2 ^ (32 - rem) →
      getLoop data val ofs rem =
        .ok (val * 2 ^ rem + bitsVal data (8 * ofs) rem)
          (inputAt data (8 * ofs + rem)) := by
  intro rem
  induction rem using Nat.strong_induction_on with
  | _ rem ih =>
    intro val ofs hle h32 hval
    by_cases h8 : 8 ≤ rem
    · obtain ⟨r, rfl⟩ : ∃ r, rem = r + 8 := ⟨rem - 8, by omega⟩
      have hofs : ofs < data.length := by omega
      rw [getLoop_add8, if_neg (by omega)]
      have hb : data.getD ofs 0 < 256 := getD_lt_of_bound data 256 (by omega) hbytes ofs
      have hv24 : val < 16777216 := by
        have h1 : 2 ^ (32 - (r + 8)) ≤ 2 ^ 24 := Nat.pow_le_pow_right (by omega) (by omega)
        have h2 : (2 : Nat) ^ 24 = 16777216 := by norm_num
        omega
      have hsh : (val <<< 8) % 4294967296 = val * 256 := by
        rw [Nat.shiftLeft_eq]
        have e8 : (2 : Nat) ^ 8 = 256 := by norm_num
        rw [e8, Nat.mod_eq_of_lt (by omega)]
      have hor : val * 256 ||| data.getD ofs 0 = val * 256 + data.getD ofs 0 := by
        have h := lor_disjoint val (data.getD ofs 0) 8 (by omega)
        rw [Nat.shiftLeft_eq] at h
        have e8 : (2 : Nat) ^ 8 = 256 := by norm_num
        rw [e8] at h
        exact h
      rw [hsh, hor]
      have hval2 : val * 256 + data.getD ofs 0 < 2 ^ (32 - r) := by
        have e : 2 ^ (32 - r) = 2 ^ (32 - (r + 8)) * 256 := by
          rw [show (256 : Nat) = 2 ^ 8 by norm_num, ← Nat.pow_add]
          congr 1
          omega
        have h2 : (val + 1) * 256 ≤ 2 ^ (32 - (r + 8)) * 256 :=
          Nat.mul_le_mul_right 256 (by omega)
        omega
      rw [ih r (by omega) _ (ofs + 1) (by omega) (by omega) hval2]
      have hbyte : bitsVal data (8 * ofs) 8 = data.getD ofs 0 := bitsVal_byte data ofs hb
      have hsplit : bitsVal data (8 * ofs) (8 + r) =
          bitsVal data (8 * ofs) 8 * 2 ^ r + bitsVal data (8 * ofs + 8) r :=
        bitsVal_split data (8 * ofs) 8 r
      have e1 : r + 8 = 8 + r := by omega
      have e2 : 8 * (ofs + 1) = 8 * ofs + 8 := by ring
      have e3 : 8 * ofs + 8 + r = 8 * ofs + (8 + r) := by omega
      rw [e1, e2, e3, hsplit, hbyte]
      have e4 : (val * 256 + data.getD ofs 0) * 2 ^ r =
          val * 2 ^ (8 + r) + data.getD ofs 0 * 2 ^ r := by
        rw [pow_add]
        norm_num
        ring
      rw [e4, Nat.add_assoc]
    · rw [getLoop_small data val ofs rem (by omega)]
      by_cases h0 : 0 < rem
      · have hofs : ofs < data.length := by omega
        rw [if_pos h0, if_neg (by omega)]
        have hmask : data.getD ofs 0 >>> (8 - rem) &&& (0xff >>> (8 - rem)) =
            data.getD ofs 0 / 2 ^ (8 - rem) % 2 ^ rem := by
          rw [and_mask _ rem (by omega), Nat.shiftRight_eq_div_pow]
        have hsh : (val <<< rem) % 4294967296 = val * 2 ^ rem := by
          rw [Nat.shiftLeft_eq, uint32_eq, Nat.mod_eq_of_lt]
          calc val * 2 ^ rem < 2 ^ (32 - rem) * 2 ^ rem :=
                Nat.mul_lt_mul_of_pos_right hval (Nat.two_pow_pos rem)
            _ = 2 ^ 32 := by rw [← Nat.pow_add]; congr 1; omega
        have hor : val * 2 ^ rem ||| data.getD ofs 0 / 2 ^ (8 - rem) % 2 ^ rem =
            val * 2 ^ rem + data.getD ofs 0 / 2 ^ (8 - rem) % 2 ^ rem := by
          have h := lor_disjoint val (data.getD ofs 0 / 2 ^ (8 - rem) % 2 ^ rem) rem
            (Nat.mod_lt _ (Nat.two_pow_pos rem))
          rw [Nat.shiftLeft_eq] at h
          exact h
        have hwb : bitsVal data (8 * ofs) rem =
            data.getD ofs 0 / 2 ^ (8 - rem) % 2 ^ rem := by
          have h := bitsVal_within_byte data (8 * ofs) rem (by omega)
          have h1 : 8 * ofs % 8 = 0 := by omega
          have h2 : 8 * ofs / 8 = ofs := by omega
          rw [h]
          simp only [h1, h2, Nat.sub_zero]
        rw [hmask, hsh, hor, ← hwb,
          inputAt_eq data (8 * ofs + rem) ofs (8 - rem) (by omega) (by omega)]
      · have hrem : rem = 0 := by omega
        subst hrem
        rw [if_neg (by omega),
          inputAt_eq data (8 * ofs + 0) ofs 8 (by omega) (by omega)]
        simp [bitsVal]

theorem get_spec (data : List Nat) (p n : Nat)
    (hbytes : ∀ b ∈ data, b < 256) (h1 : 1 ≤ n) (h32 : n ≤ 32)
    (hle : p + n ≤ 8 * data.length) :
    Input.Get (inputAt data p) n =
      .ok (bitsVal data p n) (inputAt data (p + n)) := by
  have hofs : p / 8 < data.length := by omega
  have hpm : p % 8 < 8 := by omega
  simp only [Input.Get, inputAt]
  by_cases hfast : 8 - p % 8 > n
  · rw [if_pos hfast, if_neg (by omega)]
    have hmask : data.getD (p / 8) 0 >>> (8 - p % 8 - n) &&& (0xff >>> (8 - n)) =
        data.getD (p / 8) 0 / 2 ^ (8 - p % 8 - n) % 2 ^ n := by
      rw [and_mask _ n (by omega), Nat.shiftRight_eq_div_pow]
    have hwb := bitsVal_within_byte data p n (by omega)
    rw [hmask, ← hwb,
      inputAt_eq data (p + n) (p / 8) (8 - p % 8 - n) (by omega) (by omega)]
    rfl
  · rw [if_neg hfast, if_neg (by omega)]
    have hmask : data.getD (p / 8) 0 &&& (0xff >>> (8 - (8 - p % 8))) =
        data.getD (p / 8) 0 % 2 ^ (8 - p % 8) := by
      rw [and_mask _ (8 - p % 8) (by omega)]
    have hval1 : data.getD (p / 8) 0 % 2 ^ (8 - p % 8) = bitsVal data p (8 - p % 8) := by
      have h := bitsVal_within_byte data p (8 - p % 8) (by omega)
      have e0 : 8 - p % 8 - (8 - p % 8) = 0 := by omega
      rw [h, e0, pow_zero, Nat.div_one]
    rw [hmask, hval1]
    have hloop := getLoop_spec data hbytes (n - (8 - p % 8)) (bitsVal data p (8 - p % 8))
      (p / 8 + 1) (by omega) (by omega)
      (by
        calc bitsVal data p (8 - p % 8) < 2 ^ (8 - p % 8) := bitsVal_lt data p _
          _ ≤ 2 ^ (32 - (n - (8 - p % 8))) := Nat.pow_le_pow_right (by omega) (by omega))
    rw [hloop]
    have hsplit := bitsVal_split data p (8 - p % 8) (n - (8 - p % 8))
    have e4 : 8 - p % 8 + (n - (8 - p % 8)) = n := by omega
    rw [e4] at hsplit
    have e2 : 8 * (p / 8 + 1) = p + (8 - p % 8) := by omega
    have e3 : 8 * (p / 8 + 1) + (n - (8 - p % 8)) = p + n := by omega
    rw [e2, ← hsplit]
    have e5 : p + (8 - p % 8) + (n - (8 - p % 8)) = p + n := by omega
    rw [e5]
    rfl

/-! ### State-advance and bound lemmas for `Input.Get` -/

theorem getLoop_advance (data : List Nat) :
    ∀ rem val ofs v i2, ofs ≤ data.length →
      getLoop data val ofs rem = .ok v i2 →
      i2.data = data ∧ 8 * i2.ofs + (8 - i2.bits) = 8 * ofs + rem ∧
        1 ≤ i2.bits ∧ i2.bits ≤ 8 ∧ i2.ofs ≤ data.length := by
  intro rem
  induction rem using Nat.strong_induction_on with
  | _ rem ih =>
    intro val ofs v i2 hofs hok
    by_cases h8 : 8 ≤ rem
    · obtain ⟨r, rfl⟩ : ∃ r, rem = r + 8 := ⟨rem - 8, by omega⟩
      rw [getLoop_add8] at hok
      by_cases hlen : data.length ≤ ofs
      · rw [if_pos hlen] at hok
        exact absurd hok (by simp)
      · rw [if_neg hlen] at hok
        have := ih r (by omega) _ (ofs + 1) v i2 (by omega) hok
        refine ⟨this.1, by omega, this.2.2.1, this.2.2.2.1, this.2.2.2.2⟩
    · rw [getLoop_small data val ofs rem (by omega)] at hok
      by_cases h0 : 0 < rem
      · rw [if_pos h0] at hok
        by_cases hlen : data.length ≤ ofs
        · rw [if_pos hlen] at hok
          exact absurd hok (by simp)
        · rw [if_neg hlen] at hok
          obtain ⟨rfl, rfl⟩ : _ ∧ i2 = ⟨data, ofs, 8 - rem⟩ := by
            have h := hok
            simp only [GetRes.ok.injEq] at h
            exact ⟨h.1.symm, h.2.symm⟩
          refine ⟨rfl, by simp only; omega, by simp only; omega, by simp only; omega,
            by simp only; omega⟩
      · rw [if_neg h0] at hok
        obtain ⟨rfl, rfl⟩ : _ ∧ i2 = ⟨data, ofs, 8⟩ := by
          have h := hok
          simp only [GetRes.ok.injEq] at h
          exact ⟨h.1.symm, h.2.symm⟩
        refine ⟨rfl, by simp only; omega, by simp only; omega, by simp only; omega,
          by simp only; omega⟩

theorem get_advance (i : Input) (n : Nat) (v : Nat) (i2 : Input)
    (hb1 : 1 ≤ i.bits) (hb8 : i.bits ≤ 8) (hofs : i.ofs ≤ i.data.length)
    (hok : i.Get n = .ok v i2) :
    i2.data = i.data ∧ i2.pos = i.pos + n ∧
      1 ≤ i2.bits ∧ i2.bits ≤ 8 ∧ i2.ofs ≤ i.data.length := by
  unfold Input.Get at hok
  by_cases hfast : i.bits > n
  · rw [if_pos hfast] at hok
    by_cases hlen : i.data.length ≤ i.ofs
    · rw [if_pos hlen] at hok
      exact absurd hok (by simp)
    · rw [if_neg hlen] at hok
      obtain ⟨rfl, rfl⟩ : _ ∧ i2 = ⟨i.data, i.ofs, i.bits - n⟩ := by
        have h := hok
        simp only [GetRes.ok.injEq] at h
        exact ⟨h.1.symm, h.2.symm⟩
      refine ⟨rfl, ?_, by simp only; omega, by simp only; omega, by simp only; omega⟩
      simp only [Input.pos]
      omega
  · rw [if_neg hfast] at hok
    by_cases hlen : i.data.length ≤ i.ofs
    · rw [if_pos hlen] at hok
      exact absurd hok (by simp)
    · rw [if_neg hlen] at hok
      have h := getLoop_advance i.data (n - i.bits) _ (i.ofs + 1) v i2 (by omega) hok
      refine ⟨h.1, ?_, h.2.2.1, h.2.2.2.1, h.2.2.2.2⟩
      simp only [Input.pos]
      omega

theorem getLoop_lt (data : List Nat) (hbytes : ∀ b ∈ data, b < 256) :
    ∀ rem val ofs v i2 k, val < 2 ^ k →
      getLoop data val ofs rem = .ok v i2 → v < 2 ^ (k + rem) := by
  intro rem
  induction rem using Nat.strong_induction_on with
  | _ rem ih =>
    intro val ofs v i2 k hval hok
    by_cases h8 : 8 ≤ rem
    · obtain ⟨r, rfl⟩ : ∃ r, rem = r + 8 := ⟨rem - 8, by omega⟩
      rw [getLoop_add8] at hok
      by_cases hlen : data.length ≤ ofs
      · rw [if_pos hlen] at hok
        exact absurd hok (by simp)
      · rw [if_neg hlen] at hok
        have hb : data.getD ofs 0 < 256 := getD_lt_of_bound data 256 (by omega) hbytes ofs
        have hstep : (val <<< 8) % 4294967296 ||| data.getD ofs 0 < 2 ^ (k + 8) := by
          apply Nat.or_lt_two_pow
          · by_cases hbig : k + 8 ≥ 32
            · have h1 : (val <<< 8) % 4294967296 < 4294967296 := Nat.mod_lt _ (by norm_num)
              have h2 : (4294967296 : Nat) ≤ 2 ^ (k + 8) := by
                rw [uint32_eq]
                exact Nat.pow_le_pow_right (by omega) (by omega)
              omega
            · have h1 : val <<< 8 < 2 ^ (k + 8) := by
                rw [Nat.shiftLeft_eq, pow_add]
                exact Nat.mul_lt_mul_of_pos_right hval (Nat.two_pow_pos 8)
              have h2 : (val <<< 8) % 4294967296 ≤ val <<< 8 := Nat.mod_le _ _
              omega
          · have : (256 : Nat) ≤ 2 ^ (k + 8) := by
              calc (256 : Nat) = 2 ^ 8 := by norm_num
                _ ≤ 2 ^ (k + 8) := Nat.pow_le_pow_right (by omega) (by omega)
            omega
        have := ih r (by omega) _ (ofs + 1) v i2 (k + 8) hstep hok
        have e : k + 8 + r = k + (r + 8) := by omega
        rwa [e] at this
    · rw [getLoop_small data val ofs rem (by omega)] at hok
      by_cases h0 : 0 < rem
      · rw [if_pos h0] at hok
        by_cases hlen : data.length ≤ ofs
        · rw [if_pos hlen] at hok
          exact absurd hok (by simp)
        · rw [if_neg hlen] at hok
          have hv : v = (val <<< rem) % 4294967296 |||
              (data.getD ofs 0 >>> (8 - rem) &&& (0xff >>> (8 - rem))) := by
            simp only [GetRes.ok.injEq] at hok
            exact hok.1.symm
          subst hv
          apply Nat.or_lt_two_pow
          · by_cases hbig : k + rem ≥ 32
            · have h1 : (val <<< rem) % 4294967296 < 4294967296 := Nat.mod_lt _ (by norm_num)
              have h2 : (4294967296 : Nat) ≤ 2 ^ (k + rem) := by
                rw [uint32_eq]
                exact Nat.pow_le_pow_right (by omega) (by omega)
              omega
            · have h1 : val <<< rem < 2 ^ (k + rem) := by
                rw [Nat.shiftLeft_eq, pow_add]
                exact Nat.mul_lt_mul_of_pos_right hval (Nat.two_pow_pos rem)
              have h2 : (val <<< rem) % 4294967296 ≤ val <<< rem := Nat.mod_le _ _
              omega
          · have h1 : data.getD ofs 0 >>> (8 - rem) &&& (0xff >>> (8 - rem)) < 2 ^ rem := by
              rw [and_mask _ rem (by omega)]
              exact Nat.mod_lt _ (Nat.two_pow_pos rem)
            have h2 : (2 : Nat) ^ rem ≤ 2 ^ (k + rem) := Nat.pow_le_pow_right (by omega) (by omega)
            omega
      · rw [if_neg h0] at hok
        have hv : v = val := by
          simp only [GetRes.ok.injEq] at hok
          exact hok.1.symm
        subst hv
        have hrem : rem = 0 := by omega
        subst hrem
        simpa using hval

theorem get_val_lt (i : Input) (n v : Nat) (i2 : Input)
    (hbytes : ∀ b ∈ i.data, b < 256) (hb8 : i.bits ≤ 8)
    (hok : i.Get n = .ok v i2) : v < 2 ^ n := by
  unfold Input.Get at hok
  by_cases hfast : i.bits > n
  · rw [if_pos hfast] at hok
    by_cases hlen : i.data.length ≤ i.ofs
    · rw [if_pos hlen] at hok
      exact absurd hok (by simp)
    · rw [if_neg hlen] at hok
      have hv : v = i.data.getD i.ofs 0 >>> (i.bits - n) &&& (0xff >>> (8 - n)) := by
        simp only [GetRes.ok.injEq] at hok
        exact hok.1.symm
      subst hv
      rw [and_mask _ n (by omega)]
      exact Nat.mod_lt _ (Nat.two_pow_pos n)
  · rw [if_neg hfast] at hok
    by_cases hlen : i.data.length ≤ i.ofs
    · rw [if_pos hlen] at hok
      exact absurd hok (by simp)
    · rw [if_neg hlen] at hok
      have hv1 : i.data.getD i.ofs 0 &&& (0xff >>> (8 - i.bits)) < 2 ^ i.bits := by
        rw [and_mask _ i.bits hb8]
        exact Nat.mod_lt _ (Nat.two_pow_pos i.bits)
      have h := getLoop_lt i.data hbytes (n - i.bits) _ (i.ofs + 1) v i2 i.bits hv1 hok
      have e : i.bits + (n - i.bits) = n := by omega
      rwa [e] at h

/-! ### `Input.Align` lemmas -/

theorem alignLoop_le (len : Nat) : ∀ f ofs, ofs ≤ alignLoop len ofs f
  | 0, ofs => Nat.le_refl _
  | f + 1, ofs => by
    simp only [alignLoop]
    split
    · exact Nat.le_trans (by omega) (alignLoop_le len f (ofs + 1))
    · exact Nat.le_refl _

theorem alignLoop_bound (len : Nat) :
    ∀ f ofs, ofs ≤ len → alignLoop len ofs f ≤ len
  | 0, ofs, h => h
  | f + 1, ofs, h => by
    simp only [alignLoop]
    split
    · next hcond => exact alignLoop_bound len f (ofs + 1) (by omega)
    · exact h

theorem alignLoop_exit (len : Nat) :
    ∀ f ofs, (4 - ofs % 4) % 4 ≤ f →
      alignLoop len ofs f % 4 = 0 ∨ len ≤ alignLoop len ofs f
  | 0, ofs, h => by
    have : ofs % 4 = 0 := by omega
    simp only [alignLoop]
    omega
  | f + 1, ofs, h => by
    simp only [alignLoop]
    split
    · next hcond => exact alignLoop_exit len f (ofs + 1) (by omega)
    · next hcond => omega

theorem alignLoop_noop (len : Nat) (f ofs : Nat) (h : ofs % 4 = 0) :
    alignLoop len ofs f = ofs := by
  cases f with
  | zero => rfl
  | succ f => simp [alignLoop, h]

theorem align_some (i i2 : Input) (h : i.Align = some i2) :
    i2.data = i.data ∧ i2.bits = i.bits ∧ i2.ofs % 4 = 0 ∧ i.ofs ≤ i2.ofs ∧
      (i.ofs ≤ i.data.length → i2.ofs ≤ i.data.length) ∧
      (i.ofs % 4 = 0 → i2 = i) := by
  unfold Input.Align at h
  by_cases hmod : alignLoop i.data.length i.ofs 3 % 4 ≠ 0
  · rw [if_pos hmod] at h
    exact absurd h (by simp)
  · rw [if_neg hmod] at h
    have hi2 : i2 = ⟨i.data, alignLoop i.data.length i.ofs 3, i.bits⟩ := by
      simpa using h.symm
    subst hi2
    refine ⟨rfl, rfl, ?_, ?_, ?_, ?_⟩
    · show alignLoop i.data.length i.ofs 3 % 4 = 0
      omega
    · show i.ofs ≤ alignLoop i.data.length i.ofs 3
      exact alignLoop_le _ _ _
    · intro hle
      show alignLoop i.data.length i.ofs 3 ≤ i.data.length
      exact alignLoop_bound _ _ _ hle
    · intro h0
      show Input.mk i.data (alignLoop i.data.length i.ofs 3) i.bits = i
      rw [alignLoop_noop _ 3 i.ofs h0]

theorem align_none (i : Input) (hofs : i.ofs ≤ i.data.length)
    (h : i.Align = none) : i.data.length % 4 ≠ 0 := by
  unfold Input.Align at h
  by_cases hmod : alignLoop i.data.length i.ofs 3 % 4 ≠ 0
  · have hexit := alignLoop_exit i.data.length 3 i.ofs (by omega)
    have hbd := alignLoop_bound i.data.length 3 i.ofs hofs
    omega
  · rw [if_neg hmod] at h
    exact absurd h (by simp)

theorem align_succeeds (i : Input) (hofs : i.ofs ≤ i.data.length)
    (hlen : i.data.length % 4 = 0) : ∃ i2, i.Align = some i2 := by
  unfold Input.Align
  have hexit := alignLoop_exit i.data.length 3 i.ofs (by omega)
  have hbd := alignLoop_bound i.data.length 3 i.ofs hofs
  rw [if_neg (by omega)]
  exact ⟨_, rfl⟩

/-! ### `Input.IsCtrl` and `Input.Ctrl` lemmas -/

theorem isCtrl_true_elim (i : Input) (hc : i.IsCtrl = some true) :
    ∃ i2, i.Get 9 = .ok 0x1ff i2 := by
  unfold Input.IsCtrl Input.Peek at hc
  cases hg : i.Get 9 with
  | ok v i2 =>
    rw [hg] at hc
    simp only [Option.some.injEq, beq_iff_eq] at hc
    subst hc
    exact ⟨i2, rfl⟩
  | trunc v i2 =>
    rw [hg] at hc
    simp at hc
  | panicked =>
    rw [hg] at hc
    simp at hc

theorem isCtrl_of_get9 (i : Input) (v : Nat) (i2 : Input)
    (hg : i.Get 9 = .ok v i2) (hv : v ≠ 0x1ff) : i.IsCtrl = some false := by
  unfold Input.IsCtrl Input.Peek
  rw [hg]
  simp [hv]

theorem ctrl_ok_advance (i : Input) (c : Nat) (i2 : Input)
    (hb1 : 1 ≤ i.bits) (hb8 : i.bits ≤ 8) (hofs : i.ofs ≤ i.data.length)
    (hok : i.Ctrl = .ok c i2) :
    i2.data = i.data ∧ 1 ≤ i2.bits ∧ i2.bits ≤ 8 ∧ i2.ofs ≤ i.data.length ∧
      i.pos + 9 ≤ i2.pos := by
  unfold Input.Ctrl at hok
  split at hok
  · exact absurd hok (by simp)
  · exact absurd hok (by simp)
  · rename_i v i9 hg
    have ha9 := get_advance i 9 v i9 hb1 hb8 hofs hg
    split at hok
    · simp only [CtrlRes.ok.injEq] at hok
      obtain ⟨rfl, rfl⟩ := hok
      exact ⟨ha9.1, ha9.2.2.1, ha9.2.2.2.1, ha9.2.2.2.2, by omega⟩
    · split at hok
      · exact absurd hok (by simp)
      · exact absurd hok (by simp)
      · rename_i w i3 hg4
        simp only [CtrlRes.ok.injEq] at hok
        obtain ⟨rfl, rfl⟩ := hok
        have ha4 := get_advance i9 4 w i3 ha9.2.2.1 ha9.2.2.2.1
          (ha9.1 ▸ ha9.2.2.2.2) hg4
        refine ⟨by rw [ha4.1, ha9.1], ha4.2.2.1, ha4.2.2.2.1, ?_, by omega⟩
        have h5 := ha4.2.2.2.2
        rw [ha9.1] at h5
        exact h5

theorem ctrl_ok_pos13 (i : Input) (c : Nat) (i2 : Input)
    (hb1 : 1 ≤ i.bits) (hb8 : i.bits ≤ 8) (hofs : i.ofs ≤ i.data.length)
    (hc : i.IsCtrl = some true) (hok : i.Ctrl = .ok c i2) :
    i2.pos = i.pos + 13 := by
  obtain ⟨i9, hg⟩ := isCtrl_true_elim i hc
  unfold Input.Ctrl at hok
  split at hok
  · exact absurd hok (by simp)
  · exact absurd hok (by simp)
  · rename_i v i9x hgx
    rw [hg] at hgx
    simp only [GetRes.ok.injEq] at hgx
    obtain ⟨rfl, rfl⟩ := hgx
    have ha9 := get_advance i 9 0x1ff i9 hb1 hb8 hofs hg
    split at hok
    · next hv => exact absurd rfl hv
    · split at hok
      · exact absurd hok (by simp)
      · exact absurd hok (by simp)
      · rename_i w i3 hg4
        simp only [CtrlRes.ok.injEq] at hok
        obtain ⟨rfl, rfl⟩ := hok
        have ha4 := get_advance i9 4 w i3 ha9.2.2.1 ha9.2.2.2.1
          (ha9.1 ▸ ha9.2.2.2.2) hg4
        omega

/-! ### `History` and copy-loop lemmas -/

theorem add_length (h : History) (b : Nat) :
    (h.Add b).data.length = h.data.length := by
  simp only [History.Add]
  split <;> simp

theorem specCircularRead_length :
    ∀ n (h : History) (d : Nat), (specCircularRead h d n).length = n
  | 0, _, _ => rfl
  | n + 1, h, d => by
    simp only [specCircularRead, List.length_cons]
    rw [specCircularRead_length n]

theorem copyLoop_spec :
    ∀ (n : Nat) (d : Nat) (h : History) (out : List Nat),
      d < 1024 → h.data.length = 1024 →
      copyLoop n (d : Int) h out =
        some ((specCircularRead h d n).foldl History.Add h,
              out ++ specCircularRead h d n) := by
  intro n
  induction n with
  | zero =>
    intro d h out hd hlen
    simp [copyLoop, specCircularRead]
  | succ n ih =>
    intro d h out hd hlen
    have hnot : ¬((d : Int) < 0 ∨ (h.data.length : Int) ≤ (d : Int)) := by
      rw [hlen]
      push_cast
      omega
    have hget : h.Get (d : Int) =
        .ok (h.data.getD d 0) (((d + 1) % 1024 : Nat) : Int) := by
      unfold History.Get
      rw [if_neg hnot]
      simp only [Int.toNat_natCast]
      by_cases hlast : d = 1023
      · subst hlast
        rw [if_pos (by rw [hlen]; norm_num)]
        norm_num
      · rw [if_neg (by rw [hlen]; push_cast; omega)]
        congr 1
        push_cast
        omega
    simp only [copyLoop, hget]
    rw [ih ((d + 1) % 1024) (h.Add (h.data.getD d 0)) (out ++ [h.data.getD d 0])
      (Nat.mod_lt _ (by omega)) (by rw [add_length]; exact hlen)]
    simp only [specCircularRead, List.foldl_cons]
    congr 1
    simp

theorem copyLoop_len :
    ∀ (n : Nat) (disp : Int) (h : History) (out : List Nat) h2 out2,
      copyLoop n disp h out = some (h2, out2) → h2.data.length = h.data.length := by
  intro n
  induction n with
  | zero =>
    intro disp h out h2 out2 hc
    simp only [copyLoop, Option.some.injEq, Prod.mk.injEq] at hc
    rw [← hc.1]
  | succ n ih =>
    intro disp h out h2 out2 hc
    simp only [copyLoop] at hc
    cases hg : h.Get disp with
    | panicked => rw [hg] at hc; exact absurd hc (by simp)
    | ok b d2 =>
      rw [hg] at hc
      have := ih d2 (h.Add b) (out ++ [b]) h2 out2 hc
      rw [this, add_length]

/-! ### Packing a bit stream into bytes -/

theorem pack_length : ∀ bs : List Nat, (pack bs).length = bs.length / 8
  | _ :: _ :: _ :: _ :: _ :: _ :: _ :: _ :: rest => by
    simp only [pack, List.length_cons, pack_length rest]
    omega
  | [] => by simp [pack]
  | [_] => by simp [pack]
  | [_, _] => by simp [pack]
  | [_, _, _] => by simp [pack]
  | [_, _, _, _] => by simp [pack]
  | [_, _, _, _, _] => by simp [pack]
  | [_, _, _, _, _, _] => by simp [pack]
  | [_, _, _, _, _, _, _] => by simp [pack]

theorem pack_lt : ∀ bs : List Nat, (∀ x ∈ bs, x < 2) → ∀ b ∈ pack bs, b < 256
  | b0 :: b1 :: b2 :: b3 :: b4 :: b5 :: b6 :: b7 :: rest => by
    intro hx b hb
    simp only [pack, List.mem_cons] at hb
    rcases hb with hb | hb
    · have h0 : b0 < 2 := hx b0 (by simp)
      have h1 : b1 < 2 := hx b1 (by simp)
      have h2 : b2 < 2 := hx b2 (by simp)
      have h3 : b3 < 2 := hx b3 (by simp)
      have h4 : b4 < 2 := hx b4 (by simp)
      have h5 : b5 < 2 := hx b5 (by simp)
      have h6 : b6 < 2 := hx b6 (by simp)
      have h7 : b7 < 2 := hx b7 (by simp)
      omega
    · exact pack_lt rest (fun x hxm => hx x (by simp [hxm])) b hb
  | [] => by intro _ b hb; simp [pack] at hb
  | [_] => by intro _ b hb; simp [pack] at hb
  | [_, _] => by intro _ b hb; simp [pack] at hb
  | [_, _, _] => by intro _ b hb; simp [pack] at hb
  | [_, _, _, _] => by intro _ b hb; simp [pack] at hb
  | [_, _, _, _, _] => by intro _ b hb; simp [pack] at hb
  | [_, _, _, _, _, _] => by intro _ b hb; simp [pack] at hb
  | [_, _, _, _, _, _, _] => by intro _ b hb; simp [pack] at hb

theorem bitAt_pack : ∀ bs : List Nat, (∀ x ∈ bs, x < 2) → bs.length % 8 = 0 →
    ∀ p, p < bs.length → bitAt (pack bs) p = bs.getD p 0
  | b0 :: b1 :: b2 :: b3 :: b4 :: b5 :: b6 :: b7 :: rest => by
    intro hx hdvd p hp
    have h0 : b0 < 2 := hx b0 (by simp)
    have h1 : b1 < 2 := hx b1 (by simp)
    have h2 : b2 < 2 := hx b2 (by simp)
    have h3 : b3 < 2 := hx b3 (by simp)
    have h4 : b4 < 2 := hx b4 (by simp)
    have h5 : b5 < 2 := hx b5 (by simp)
    have h6 : b6 < 2 := hx b6 (by simp)
    have h7 : b7 < 2 := hx b7 (by simp)
    by_cases hsmall : p < 8
    · interval_cases p <;> (simp [pack, bitAt]; omega)
    · obtain ⟨q, rfl⟩ : ∃ q, p = q + 8 := ⟨p - 8, by omega⟩
      have e1 : (q + 8) / 8 = q / 8 + 1 := by omega
      have e2 : (q + 8) % 8 = q % 8 := by omega
      have lhs : bitAt (pack (b0 :: b1 :: b2 :: b3 :: b4 :: b5 :: b6 :: b7 :: rest))
          (q + 8) = bitAt (pack rest) q := by
        simp only [pack, bitAt, e1, e2, List.getD_cons_succ]
      rw [lhs]
      have rhs : (b0 :: b1 :: b2 :: b3 :: b4 :: b5 :: b6 :: b7 :: rest).getD (q + 8) 0 =
          rest.getD q 0 := by
        simp only [List.getD_cons_succ]
      rw [rhs]
      have hlen : (b0 :: b1 :: b2 :: b3 :: b4 :: b5 :: b6 :: b7 :: rest).length =
          rest.length + 8 := by
        simp
      rw [hlen] at hdvd hp
      exact bitAt_pack rest (fun x hxm => hx x (by simp [hxm])) (by omega) q (by omega)
  | [] => by intro _ _ p hp; simp at hp
  | [_] => by intro _ hdvd _ _; simp at hdvd
  | [_, _] => by intro _ hdvd _ _; simp at hdvd
  | [_, _, _] => by intro _ hdvd _ _; simp at hdvd
  | [_, _, _, _] => by intro _ hdvd _ _; simp at hdvd
  | [_, _, _, _, _] => by intro _ hdvd _ _; simp at hdvd
  | [_, _, _, _, _, _] => by intro _ hdvd _ _; simp at hdvd
  | [_, _, _, _, _, _, _] => by intro _ hdvd _ _; simp at hdvd

/-! ### Structure of the literal + EOR bit stream -/

theorem bitsVal_four (data : List Nat) (p : Nat) :
    bitsVal data p 4 =
      ((bitAt data p * 2 + bitAt data (p + 1)) * 2 + bitAt data (p + 2)) * 2
        + bitAt data (p + 3) := by
  have e0 : bitsVal data p 0 = 0 := rfl
  have e1 : bitsVal data p 1 = bitsVal data p 0 * 2 + bitAt data (p + 0) := rfl
  have e2 : bitsVal data p 2 = bitsVal data p 1 * 2 + bitAt data (p + 1) := rfl
  have e3 : bitsVal data p 3 = bitsVal data p 2 * 2 + bitAt data (p + 2) := rfl
  have e4 : bitsVal data p 4 = bitsVal data p 3 * 2 + bitAt data (p + 3) := rfl
  rw [e4, e3, e2, e1, e0]
  ring_nf

theorem litSymbol_length (b : Nat) : (litSymbol b).length = 9 := by
  simp [litSymbol, byteBits]

theorem litStream_length (lits : List Nat) :
    (lits.flatMap litSymbol).length = 9 * lits.length := by
  induction lits with
  | nil => simp
  | cons a rest ih =>
    simp only [List.flatMap_cons, List.length_append, ih, litSymbol_length,
      List.length_cons]
    ring

theorem byteBits_mem_lt (b : Nat) : ∀ x ∈ byteBits b, x < 2 := by
  intro x hx
  simp only [byteBits, List.mem_cons, List.not_mem_nil, or_false] at hx
  rcases hx with rfl | rfl | rfl | rfl | rfl | rfl | rfl | rfl <;> omega

theorem stream_lt (lits pad : List Nat) (hpad : ∀ x ∈ pad, x < 2) :
    ∀ x ∈ lits.flatMap litSymbol ++ (eorSym ++ pad), x < 2 := by
  intro x hx
  simp only [List.mem_append] at hx
  rcases hx with hx | hx | hx
  · rw [List.mem_flatMap] at hx
    obtain ⟨a, _, hxa⟩ := hx
    simp only [litSymbol, List.mem_cons] at hxa
    rcases hxa with rfl | hxa
    · omega
    · exact byteBits_mem_lt a x hxa
  · simp only [eorSym, List.mem_cons, List.not_mem_nil, or_false] at hx
    omega
  · exact hpad x hx

theorem stream_length (lits pad : List Nat) :
    (lits.flatMap litSymbol ++ (eorSym ++ pad)).length =
      9 * lits.length + 13 + pad.length := by
  simp only [List.length_append, litStream_length, eorSym, List.length_cons,
    List.length_nil]
  omega

theorem litStream_getD : ∀ (lits : List Nat) (k j : Nat), k < lits.length → j < 9 →
    (lits.flatMap litSymbol).getD (9 * k + j) 0 = (litSymbol (lits.getD k 0)).getD j 0
  | [], k, j, hk, _ => by simp at hk
  | a :: rest, 0, j, hk, hj => by
    simp only [List.flatMap_cons, Nat.mul_zero, Nat.zero_add, List.getD_cons_zero]
    rw [List.getD_append _ _ _ _ (by rw [litSymbol_length]; omega)]
  | a :: rest, k + 1, j, hk, hj => by
    simp only [List.flatMap_cons, List.getD_cons_succ]
    rw [List.getD_append_right _ _ _ _ (by rw [litSymbol_length]; omega)]
    have e : 9 * (k + 1) + j - (litSymbol a).length = 9 * k + j := by
      rw [litSymbol_length]
      omega
    rw [e]
    exact litStream_getD rest k j (by simpa using hk) hj

theorem stream_getD_lit (lits pad : List Nat) (k j : Nat)
    (hk : k < lits.length) (hj : j < 9) :
    (lits.flatMap litSymbol ++ (eorSym ++ pad)).getD (9 * k + j) 0 =
      (litSymbol (lits.getD k 0)).getD j 0 := by
  rw [List.getD_append _ _ _ _ (by rw [litStream_length]; omega)]
  exact litStream_getD lits k j hk hj

theorem stream_getD_eor (lits pad : List Nat) (j : Nat) (hj : j < 13) :
    (lits.flatMap litSymbol ++ (eorSym ++ pad)).getD (9 * lits.length + j) 0 =
      eorSym.getD j 0 := by
  rw [List.getD_append_right _ _ _ _ (by rw [litStream_length]; omega)]
  rw [litStream_length]
  have e : 9 * lits.length + j - 9 * lits.length = j := by omega
  rw [e]
  rw [List.getD_append _ _ _ _ (by simp [eorSym]; omega)]

theorem litSymbol_getD_succ (b i : Nat) (hi : i < 8) :
    (litSymbol b).getD (i + 1) 0 = bitAt [b] i := by
  interval_cases i <;> norm_num [litSymbol, byteBits, bitAt]

theorem eorSym_getD_lt9 (j : Nat) (hj : j < 9) : eorSym.getD j 0 = 1 := by
  interval_cases j <;> rfl

/-! ### Decoding a pure literal stream -/

theorem literal_run (lits pad : List Nat)
    (hlit : ∀ b ∈ lits, b < 256) (hpad : ∀ x ∈ pad, x < 2)
    (hlen32 : (9 * lits.length + 13 + pad.length) % 32 = 0) :
    ∀ fuel k (h : History) (res : List Nat),
      k ≤ lits.length → lits.length - k < fuel →
      loop fuel ⟨inputAt (pack (lits.flatMap litSymbol ++ (eorSym ++ pad))) (9 * k),
        .s1, h, res⟩ = some (.ok (res ++ lits.drop k)) := by
  set bs := lits.flatMap litSymbol ++ (eorSym ++ pad) with hbs
  set data := pack bs with hdata
  have hbs2 : ∀ x ∈ bs, x < 2 := stream_lt lits pad hpad
  have hTlen : bs.length = 9 * lits.length + 13 + pad.length := stream_length lits pad
  have hdvd : bs.length % 8 = 0 := by omega
  have hdatalen : 8 * data.length = bs.length := by
    rw [hdata, pack_length]
    omega
  have hbytes : ∀ b ∈ data, b < 256 := pack_lt bs hbs2
  have hbit : ∀ p, p < bs.length → bitAt data p = bs.getD p 0 := bitAt_pack bs hbs2 hdvd
  have hpow8 : (2 : Nat) ^ 8 = 256 := by norm_num
  intro fuel
  induction fuel with
  | zero =>
    intro k h res hk hfuel
    omega
  | succ fuel ih =>
    intro k h res hk hfuel
    by_cases hkL : k < lits.length
    · -- one literal symbol
      have hflag : bitAt data (9 * k) = 0 := by
        rw [hbit _ (by omega)]
        have hs := stream_getD_lit lits pad k 0 hkL (by omega)
        rw [Nat.add_zero] at hs
        rw [hs]
        rfl
      have hbyteb : ∀ i, i < 8 → bitAt data (9 * k + 1 + i) = bitAt [lits.getD k 0] i := by
        intro i hi
        rw [hbit _ (by omega)]
        have e : 9 * k + 1 + i = 9 * k + (i + 1) := by omega
        rw [e, stream_getD_lit lits pad k (i + 1) hkL (by omega)]
        exact litSymbol_getD_succ _ i hi
      have hlitk : lits.getD k 0 < 256 := getD_lt_of_bound lits 256 (by omega) hlit k
      have hval8 : bitsVal data (9 * k + 1) 8 = lits.getD k 0 := by
        rw [bitsVal_congr data [lits.getD k 0] (9 * k + 1) 0 8
          (fun j hj => by rw [Nat.zero_add]; exact hbyteb j hj)]
        have hb := bitsVal_byte [lits.getD k 0] 0 (by simpa using hlitk)
        simpa using hb
      have hg9 := get_spec data (9 * k) 9 hbytes (by omega) (by omega) (by omega)
      have hv9 : bitsVal data (9 * k) 9 < 256 := by
        rw [bitsVal_succ_front, hflag]
        have := bitsVal_lt data (9 * k + 1) 8
        omega
      have hIs : (inputAt data (9 * k)).IsCtrl = some false :=
        isCtrl_of_get9 _ _ _ hg9 (by omega)
      have hg1 := get_spec data (9 * k) 1 hbytes (by omega) (by omega) (by omega)
      have hg1v : bitsVal data (9 * k) 1 = 0 := by
        rw [bitsVal_one]
        exact hflag
      rw [hg1v] at hg1
      have hg8 := get_spec data (9 * k + 1) 8 hbytes (by omega) (by omega) (by omega)
      rw [hval8] at hg8
      have hstep : step ⟨inputAt data (9 * k), .s1, h, res⟩ =
          .cont ⟨inputAt data (9 * k + 1 + 8), .s1, h.Add (lits.getD k 0),
            res ++ [lits.getD k 0]⟩ := by
        simp [step, hIs, hg1, hg8]
      rw [loop, hstep]
      have e9 : 9 * k + 1 + 8 = 9 * (k + 1) := by ring
      rw [e9]
      show loop fuel ⟨inputAt data (9 * (k + 1)), .s1, h.Add (lits.getD k 0),
        res ++ [lits.getD k 0]⟩ = _
      rw [ih (k + 1) _ _ (by omega) (by omega)]
      have hdrop : lits.drop k = lits.getD k 0 :: lits.drop (k + 1) := by
        rw [List.drop_eq_getElem_cons hkL, List.getD_eq_getElem _ _ hkL]
      rw [hdrop]
      simp
    · -- EOR control word
      have hkL2 : k = lits.length := by omega
      subst hkL2
      have hones : ∀ j, j < 9 → bitAt data (9 * lits.length + j) = 1 := by
        intro j hj
        rw [hbit _ (by omega), stream_getD_eor lits pad j (by omega)]
        exact eorSym_getD_lt9 j hj
      have hmarker : bitsVal data (9 * lits.length) 9 = 511 := by
        have hm := bitsVal_all_ones data (9 * lits.length) 9 hones
        norm_num at hm
        exact hm
      have hg9 := get_spec data (9 * lits.length) 9 hbytes (by omega) (by omega) (by omega)
      rw [hmarker] at hg9
      have hIs : (inputAt data (9 * lits.length)).IsCtrl = some true := by
        unfold Input.IsCtrl Input.Peek
        rw [hg9]
        rfl
      have hcode : bitsVal data (9 * lits.length + 9) 4 = 4 := by
        rw [bitsVal_four]
        have h9 : bitAt data (9 * lits.length + 9) = 0 := by
          rw [hbit _ (by omega), stream_getD_eor lits pad 9 (by omega)]
          rfl
        have h10 : bitAt data (9 * lits.length + 9 + 1) = 1 := by
          have e : 9 * lits.length + 9 + 1 = 9 * lits.length + 10 := by omega
          rw [e, hbit _ (by omega), stream_getD_eor lits pad 10 (by omega)]
          rfl
        have h11 : bitAt data (9 * lits.length + 9 + 2) = 0 := by
          have e : 9 * lits.length + 9 + 2 = 9 * lits.length + 11 := by omega
          rw [e, hbit _ (by omega), stream_getD_eor lits pad 11 (by omega)]
          rfl
        have h12 : bitAt data (9 * lits.length + 9 + 3) = 0 := by
          have e : 9 * lits.length + 9 + 3 = 9 * lits.length + 12 := by omega
          rw [e, hbit _ (by omega), stream_getD_eor lits pad 12 (by omega)]
          rfl
        rw [h9, h10, h11, h12]
      have hg4 := get_spec data (9 * lits.length + 9) 4 hbytes (by omega) (by omega) (by omega)
      rw [hcode] at hg4
      have hCtrl : (inputAt data (9 * lits.length)).Ctrl =
          .ok 4 (inputAt data (9 * lits.length + 9 + 4)) := by
        unfold Input.Ctrl
        rw [hg9]
        simp only [ne_eq, not_true_eq_false, if_false, ite_false]
        rw [hg4]
      have hlen4 : data.length % 4 = 0 := by omega
      obtain ⟨ia, hal⟩ := align_succeeds (inputAt data (9 * lits.length + 9 + 4))
        (by show (9 * lits.length + 9 + 4) / 8 ≤ data.length; omega) hlen4
      have hstep : step ⟨inputAt data (9 * lits.length), .s1, h, res⟩ =
          .done (.ok res) := by
        simp [step, hIs, hCtrl, hal]
      rw [loop, hstep]
      simp

/-! ### Match-count reading lemmas -/

theorem matchExtraBits_pos : ∀ n, 1 ≤ matchExtraBits n := by
  intro n
  rcases n with _ | _ | _ | _ | n <;> simp [matchExtraBits]

theorem readOnes_advance : ∀ (cnt : Nat) (i : Input) (k : Nat) (i2 : Input),
    1 ≤ i.bits → i.bits ≤ 8 → i.ofs ≤ i.data.length →
    readOnes i cnt = .ok k i2 →
    i2.data = i.data ∧ 1 ≤ i2.bits ∧ i2.bits ≤ 8 ∧ i2.ofs ≤ i.data.length ∧
      i.pos ≤ i2.pos ∧ k ≤ cnt := by
  intro cnt
  induction cnt with
  | zero =>
    intro i k i2 hb1 hb8 hofs hok
    simp only [readOnes, OnesRes.ok.injEq] at hok
    obtain ⟨rfl, rfl⟩ := hok
    exact ⟨rfl, hb1, hb8, hofs, Nat.le_refl _, Nat.le_refl _⟩
  | succ cnt ih =>
    intro i k i2 hb1 hb8 hofs hok
    simp only [readOnes] at hok
    split at hok
    · exact absurd hok (by simp)
    · exact absurd hok (by simp)
    · rename_i v iv hg
      have hadv := get_advance i 1 v iv hb1 hb8 hofs hg
      split at hok
      · simp only [OnesRes.ok.injEq] at hok
        obtain ⟨rfl, rfl⟩ := hok
        exact ⟨hadv.1, hadv.2.2.1, hadv.2.2.2.1, hadv.2.2.2.2, by omega, by omega⟩
      · split at hok
        · rename_i k3 i3 hrec
          simp only [OnesRes.ok.injEq] at hok
          obtain ⟨rfl, rfl⟩ := hok
          have hih := ih iv k3 i3 hadv.2.2.1 hadv.2.2.2.1
            (by rw [hadv.1]; exact hadv.2.2.2.2) hrec
          refine ⟨by rw [hih.1, hadv.1], hih.2.1, hih.2.2.1, ?_, by omega, by omega⟩
          rw [← hadv.1]
          exact hih.2.2.2.1
        · exact absurd hok (by simp)
        · exact absurd hok (by simp)

theorem readMatchCount_advance (i : Input) (mc : Nat) (i2 : Input)
    (hb1 : 1 ≤ i.bits) (hb8 : i.bits ≤ 8) (hofs : i.ofs ≤ i.data.length)
    (hok : readMatchCount i = .ok mc i2) :
    i2.data = i.data ∧ 1 ≤ i2.bits ∧ i2.bits ≤ 8 ∧ i2.ofs ≤ i.data.length ∧
      i.pos + 1 ≤ i2.pos := by
  unfold readMatchCount at hok
  split at hok
  · exact absurd hok (by simp)
  · exact absurd hok (by simp)
  · rename_i ones io ho
    have hadv := readOnes_advance 4 i ones io hb1 hb8 hofs ho
    split at hok
    · exact absurd hok (by simp)
    · exact absurd hok (by simp)
    · rename_i extra ie hge
      simp only [MCRes.ok.injEq] at hok
      obtain ⟨rfl, rfl⟩ := hok
      have hadv2 := get_advance io (matchExtraBits ones) extra ie hadv.2.1 hadv.2.2.1
        (by rw [hadv.1]; exact hadv.2.2.2.1) hge
      have hpos := matchExtraBits_pos ones
      refine ⟨by rw [hadv2.1, hadv.1], hadv2.2.2.1, hadv2.2.2.2.1, ?_, by omega⟩
      rw [← hadv.1]
      exact hadv2.2.2.2.2

/-! ### Copy-pointer decode lemmas -/

theorem decodeCopy_reject (sch : Scheme) (i : Input) (h : History) (res : List Nat)
    (mc : Nat) (i2 : Input) (hok : readMatchCount i = .ok mc i2) (hgt : 271 < mc) :
    decodeCopy sch i h res = .done (.invalidMatchCount mc) := by
  simp only [decodeCopy, hok]
  rw [if_pos hgt]

theorem decodeCopy_accept (sch : Scheme) (i : Input) (h : History) (res : List Nat)
    (mc : Nat) (i2 : Input) (hok : readMatchCount i = .ok mc i2) (hle : mc ≤ 271) :
    ∀ m, decodeCopy sch i h res ≠ .done (.invalidMatchCount m) := by
  intro m
  simp only [decodeCopy, hok]
  rw [if_neg (by omega)]
  split
  · simp
  · simp
  · split <;> simp

theorem decodeCopy_no_pd (sch : Scheme) (i : Input) (h : History) (res : List Nat)
    (hbytes : ∀ b ∈ i.data, b < 256) (hb1 : 1 ≤ i.bits) (hb8 : i.bits ≤ 8)
    (hofs : i.ofs ≤ i.data.length) (hh : h.data.length = 1024) :
    decodeCopy sch i h res ≠ .done .panicDisplacement := by
  unfold decodeCopy
  split
  · simp
  · simp
  · rename_i mc i2 hmc
    split
    · simp
    · split
      · simp
      · simp
      · rename_i disp i3 hg10
        have hadv := readMatchCount_advance i mc i2 hb1 hb8 hofs hmc
        have hlt := get_val_lt i2 10 disp i3 (by rw [hadv.1]; exact hbytes)
          hadv.2.2.1 hg10
        have hdisp : disp < 1024 := by
          have : (2 : Nat) ^ 10 = 1024 := by norm_num
          omega
        rw [copyLoop_spec mc disp h res hdisp hh]
        simp

theorem decodeCopy_cont (sch : Scheme) (i : Input) (h : History) (res : List Nat)
    (d2 : DState) (hb1 : 1 ≤ i.bits) (hb8 : i.bits ≤ 8)
    (hofs : i.ofs ≤ i.data.length)
    (hstep : decodeCopy sch i h res = .cont d2) :
    d2.input.data = i.data ∧ 1 ≤ d2.input.bits ∧ d2.input.bits ≤ 8 ∧
      d2.input.ofs ≤ i.data.length ∧ i.pos + 10 ≤ d2.input.pos ∧
      d2.history.data.length = h.data.length := by
  unfold decodeCopy at hstep
  split at hstep
  · exact absurd hstep (by simp)
  · exact absurd hstep (by simp)
  · rename_i mc i2 hmc
    have hadv := readMatchCount_advance i mc i2 hb1 hb8 hofs hmc
    split at hstep
    · exact absurd hstep (by simp)
    · split at hstep
      · exact absurd hstep (by simp)
      · exact absurd hstep (by simp)
      · rename_i disp i3 hg10
        have hadv2 := get_advance i2 10 disp i3 hadv.2.1 hadv.2.2.1
          (by rw [hadv.1]; exact hadv.2.2.2.1) hg10
        cases hcl : copyLoop mc (disp : Int) h res with
        | none =>
          rw [hcl] at hstep
          exact absurd hstep (by simp)
        | some pr =>
          obtain ⟨h2, res2⟩ := pr
          rw [hcl] at hstep
          have h4 : StepRes.cont ⟨i3, sch, h2, res2⟩ = StepRes.cont d2 := hstep
          simp only [StepRes.cont.injEq] at h4
          subst h4
          dsimp only
          refine ⟨by rw [hadv2.1, hadv.1], hadv2.2.2.1, hadv2.2.2.2.1, ?_, by omega, ?_⟩
          · rw [← hadv.1]
            exact hadv2.2.2.2.2
          · exact copyLoop_len mc (disp : Int) h res h2 res2 hcl

/-! ### Invariant preservation and progress of `step` -/

theorem step_cont_sound (d d2 : DState)
    (hb1 : 1 ≤ d.input.bits) (hb8 : d.input.bits ≤ 8)
    (hofs : d.input.ofs ≤ d.input.data.length)
    (hstep : step d = .cont d2) :
    d2.input.data = d.input.data ∧ 1 ≤ d2.input.bits ∧ d2.input.bits ≤ 8 ∧
      d2.input.ofs ≤ d2.input.data.length ∧ d.input.pos + 9 ≤ d2.input.pos ∧
      d2.history.data.length = d.history.data.length := by
  unfold step at hstep
  split at hstep
  · exact absurd hstep (by simp)
  · -- control-word path
    split at hstep
    · exact absurd hstep (by simp)
    · exact absurd hstep (by simp)
    · rename_i c i2 hctrl
      have hadv := ctrl_ok_advance d.input c i2 hb1 hb8 hofs hctrl
      have hi2len : i2.ofs ≤ i2.data.length := by
        rw [hadv.1]
        exact hadv.2.2.2.1
      split at hstep
      · -- Flush
        cases hal : i2.Align with
        | none =>
          rw [hal] at hstep
          exact absurd hstep (by simp)
        | some i3 =>
          rw [hal] at hstep
          have h4 : StepRes.cont { d with input := i3 } = StepRes.cont d2 := hstep
          simp only [StepRes.cont.injEq] at h4
          subst h4
          have has := align_some i2 i3 hal
          dsimp only
          refine ⟨by rw [has.1, hadv.1], ?_, ?_, ?_, ?_, rfl⟩
          · rw [has.2.1]
            exact hadv.2.1
          · rw [has.2.1]
            exact hadv.2.2.1
          · rw [has.1]
            exact has.2.2.2.2.1 hi2len
          · have hmono : i2.pos ≤ i3.pos := by
              simp only [Input.pos]
              have h6 := has.2.2.2.1
              rw [has.2.1]
              omega
            have h7 := hadv.2.2.2.2
            omega
      · split at hstep
        · -- Scheme1
          have h4 : StepRes.cont { d with input := i2, scheme := Scheme.s1 } = StepRes.cont d2 := hstep
          simp only [StepRes.cont.injEq] at h4
          subst h4
          exact ⟨hadv.1, hadv.2.1, hadv.2.2.1, hi2len, hadv.2.2.2.2, rfl⟩
        · split at hstep
          · -- Scheme2
            have h4 : StepRes.cont { d with input := i2, scheme := Scheme.s2 } = StepRes.cont d2 := hstep
            simp only [StepRes.cont.injEq] at h4
            subst h4
            exact ⟨hadv.1, hadv.2.1, hadv.2.2.1, hi2len, hadv.2.2.2.2, rfl⟩
          · split at hstep
            · -- EOR
              cases hal : i2.Align with
              | none =>
                rw [hal] at hstep
                exact absurd hstep (by simp)
              | some i3 =>
                rw [hal] at hstep
                exact absurd hstep (by simp)
            · split at hstep
              · -- Reset1
                have h4 : StepRes.cont { d with input := i2, scheme := Scheme.s1, history := d.history.Reset } = StepRes.cont d2 := hstep
                simp only [StepRes.cont.injEq] at h4
                subst h4
                exact ⟨hadv.1, hadv.2.1, hadv.2.2.1, hi2len, hadv.2.2.2.2, rfl⟩
              · split at hstep
                · -- Reset2
                  have h4 : StepRes.cont { d with input := i2, scheme := Scheme.s2, history := d.history.Reset } = StepRes.cont d2 := hstep
                  simp only [StepRes.cont.injEq] at h4
                  subst h4
                  exact ⟨hadv.1, hadv.2.1, hadv.2.2.1, hi2len, hadv.2.2.2.2, rfl⟩
                · split at hstep
                  · -- EndMarker
                    split at hstep
                    · exact absurd hstep (by simp)
                    · have h4 : StepRes.cont { d with input := i2 } = StepRes.cont d2 := hstep
                      simp only [StepRes.cont.injEq] at h4
                      subst h4
                      exact ⟨hadv.1, hadv.2.1, hadv.2.2.1, hi2len, hadv.2.2.2.2, rfl⟩
                  · exact absurd hstep (by simp)
  · -- data-symbol path
    split at hstep
    · -- Scheme 1
      split at hstep
      · exact absurd hstep (by simp)
      · exact absurd hstep (by simp)
      · rename_i v i2 hg1
        have ha1 := get_advance d.input 1 v i2 hb1 hb8 hofs hg1
        split at hstep
        · -- literal
          split at hstep
          · exact absurd hstep (by simp)
          · exact absurd hstep (by simp)
          · rename_i b i3 hg8
            have ha8 := get_advance i2 8 b i3 ha1.2.2.1 ha1.2.2.2.1
              (by rw [ha1.1]; exact ha1.2.2.2.2) hg8
            have h4 : StepRes.cont { d with input := i3, history := d.history.Add b, result := d.result ++ [b] } = StepRes.cont d2 := hstep
            simp only [StepRes.cont.injEq] at h4
            subst h4
            dsimp only
            refine ⟨by rw [ha8.1, ha1.1], ha8.2.2.1, ha8.2.2.2.1, ?_, by omega,
              add_length _ _⟩
            rw [ha8.1, ha1.1]
            rw [← ha1.1]
            exact ha8.2.2.2.2
        · -- copy pointer
          have hdc := decodeCopy_cont d.scheme i2 d.history d.result d2
            ha1.2.2.1 ha1.2.2.2.1 (by rw [ha1.1]; exact ha1.2.2.2.2) hstep
          refine ⟨by rw [hdc.1, ha1.1], hdc.2.1, hdc.2.2.1, ?_, by omega, hdc.2.2.2.2.2⟩
          rw [hdc.1]
          exact hdc.2.2.2.1
    · exact absurd hstep (by simp)

theorem step_no_pd (d : DState)
    (hbytes : ∀ b ∈ d.input.data, b < 256)
    (hb1 : 1 ≤ d.input.bits) (hb8 : d.input.bits ≤ 8)
    (hofs : d.input.ofs ≤ d.input.data.length)
    (hh : d.history.data.length = 1024) :
    step d ≠ .done .panicDisplacement := by
  unfold step
  split
  · simp
  · split
    · simp
    · simp
    · rename_i c i2 hctrl
      split
      · cases i2.Align <;> simp
      · split
        · simp
        · split
          · simp
          · split
            · cases i2.Align <;> simp
            · split
              · simp
              · split
                · simp
                · split
                  · split <;> simp
                  · simp
  · split
    · split
      · simp
      · simp
      · rename_i v i2 hg1
        have ha1 := get_advance d.input 1 v i2 hb1 hb8 hofs hg1
        split
        · split <;> simp
        · exact decodeCopy_no_pd d.scheme i2 d.history d.result
            (by rw [ha1.1]; exact hbytes) ha1.2.2.1 ha1.2.2.2.1
            (by rw [ha1.1]; exact ha1.2.2.2.2) hh
    · simp

/-! ### Loop-level lemmas -/

theorem loop_no_none : ∀ (fuel : Nat) (d : DState),
    1 ≤ d.input.bits → d.input.bits ≤ 8 →
    d.input.ofs ≤ d.input.data.length →
    8 * d.input.data.length + 16 ≤ 9 * fuel + d.input.pos →
    loop fuel d ≠ none := by
  intro fuel
  induction fuel with
  | zero =>
    intro d h1 h8 ho hineq
    have hpos : d.input.pos ≤ 8 * d.input.data.length + 7 := by
      simp only [Input.pos]
      omega
    omega
  | succ fuel ih =>
    intro d h1 h8 ho hineq
    cases hstep : step d with
    | done r =>
      rw [loop, hstep]
      simp
    | cont d2 =>
      rw [loop, hstep]
      have hs := step_cont_sound d d2 h1 h8 ho hstep
      show loop fuel d2 ≠ none
      exact ih d2 hs.2.1 hs.2.2.1 hs.2.2.2.1
        (by
          have he : d2.input.data.length = d.input.data.length := by rw [hs.1]
          rw [he]
          have := hs.2.2.2.2.1
          omega)

theorem loop_no_pd : ∀ (fuel : Nat) (d : DState),
    (∀ b ∈ d.input.data, b < 256) →
    1 ≤ d.input.bits → d.input.bits ≤ 8 →
    d.input.ofs ≤ d.input.data.length →
    d.history.data.length = 1024 →
    loop fuel d ≠ some Result.panicDisplacement := by
  intro fuel
  induction fuel with
  | zero =>
    intro d _ _ _ _ _
    simp [loop]
  | succ fuel ih =>
    intro d hbytes h1 h8 ho hh
    cases hstep : step d with
    | done r =>
      rw [loop, hstep]
      intro hr
      have hrr : r = Result.panicDisplacement := by simpa using hr
      rw [hrr] at hstep
      exact step_no_pd d hbytes h1 h8 ho hh hstep
    | cont d2 =>
      rw [loop, hstep]
      have hs := step_cont_sound d d2 h1 h8 ho hstep
      show loop fuel d2 ≠ some Result.panicDisplacement
      exact ih d2 (by rw [hs.1]; exact hbytes) hs.2.1 hs.2.2.1 hs.2.2.2.1
        (by rw [hs.2.2.2.2.2]; exact hh)

/-! ### Claim theorems -/

/-- C1: for every input stream consisting solely of Scheme-1 literal symbols
(a 0 flag bit followed by 8 data bits each) followed by an EOR control word,
with alignment padding so the post-EOR align succeeds (total bit length a
multiple of 32), `Decompress` returns exactly the concatenation of the literal
byte values in emission order, with no error. -/
theorem C1_literal_stream_decode (lits pad : List Nat)
    (hlit : ∀ b ∈ lits, b < 256) (hpad : ∀ x ∈ pad, x < 2)
    (hlen32 : (9 * lits.length + 13 + pad.length) % 32 = 0) :
    Decompress (pack (lits.flatMap litSymbol ++ (eorSym ++ pad))) =
      some (.ok lits) := by
  have hlen : (pack (lits.flatMap litSymbol ++ (eorSym ++ pad))).length =
      (9 * lits.length + 13 + pad.length) / 8 := by
    rw [pack_length, stream_length]
  have h0 : (Input.mk (pack (lits.flatMap litSymbol ++ (eorSym ++ pad))) 0 8) =
      inputAt (pack (lits.flatMap litSymbol ++ (eorSym ++ pad))) (9 * 0) := by
    norm_num [inputAt]
  show loop ((pack (lits.flatMap litSymbol ++ (eorSym ++ pad))).length + 2)
    ⟨⟨pack (lits.flatMap litSymbol ++ (eorSym ++ pad)), 0, 8⟩, .s1, NewHistory, []⟩ =
    some (.ok lits)
  rw [h0, literal_run lits pad hlit hpad hlen32 _ 0 NewHistory [] (by omega)
    (by rw [hlen]; omega)]
  simp

/-- C1 witness: the spec's concrete scenario, two literals `A` (0x41) and `B`
(0x42) followed by the EOR control word and one zero padding bit. -/
theorem C1_witness :
    ((∀ b ∈ ([65, 66] : List Nat), b < 256) ∧ (∀ x ∈ ([0] : List Nat), x < 2) ∧
      (9 * ([65, 66] : List Nat).length + 13 + ([0] : List Nat).length) % 32 = 0) ∧
    Decompress (pack (([65, 66] : List Nat).flatMap litSymbol ++ (eorSym ++ [0]))) =
      some (.ok [65, 66]) :=
  ⟨⟨by decide, by decide, by decide⟩,
    C1_literal_stream_decode [65, 66] [0] (by decide) (by decide) (by decide)⟩

/-- C2: the copy loop of `Decompress` appends exactly `matchCount` bytes,
obtained by repeatedly reading one byte from the history at the current
displacement, appending it both to the output and to the history, and
advancing the displacement with wraparound at capacity 1024 — i.e. its result
equals the literal byte-by-byte circular read of the history as it is being
extended (`specCircularRead`), so self-overlapping copies reproduce the run. -/
theorem C2_copy_circular (n d : Nat) (h : History) (out : List Nat)
    (hd : d < 1024) (hlen : h.data.length = 1024) :
    copyLoop n (d : Int) h out =
      some ((specCircularRead h d n).foldl History.Add h,
            out ++ specCircularRead h d n) ∧
      (specCircularRead h d n).length = n :=
  ⟨copyLoop_spec n d h out hd hlen, specCircularRead_length n h d⟩

/-- C2 witness: history preloaded with bytes 88, 89 ("XY"), then a copy of
3 bytes from displacement 0 — a self-overlapping copy (the third byte read is
the first byte written by this same copy). -/
theorem C2_witness :
    ((0 : Nat) < 1024 ∧ ((NewHistory.Add 88).Add 89).data.length = 1024) ∧
    copyLoop 3 ((0 : Nat) : Int) ((NewHistory.Add 88).Add 89) [] =
      some ((specCircularRead ((NewHistory.Add 88).Add 89) 0 3).foldl History.Add
              ((NewHistory.Add 88).Add 89),
            [] ++ specCircularRead ((NewHistory.Add 88).Add 89) 0 3) :=
  ⟨⟨by decide, by decide⟩,
    (C2_copy_circular 3 0 ((NewHistory.Add 88).Add 89) [] (by decide) (by decide)).1⟩

/-- C3: the claim says truncated input always yields the TruncatedInput error
and never a panic; but on the empty input (a valid truncation point) the
unchecked first slice access of `Input.Get` panics with an index-out-of-range
runtime error instead.  This theorem evaluates `Decompress` at that failing
input. -/
theorem C3_truncation_panics : Decompress [] = some Result.panicIndex := rfl

/-- C4 counterexample: the claim says an out-of-range offset passed to
`History.Get` is surfaced as a decode error, never a process abort; but at
offset 1024 the source calls `panic`, aborting the process. -/
theorem C4_counterexample : History.Get NewHistory 1024 = HGetRes.panicked := by
  decide

/-- C4 amended: for every offset outside `[0, len)`, `History.Get` aborts the
process via `panic` (it never performs the out-of-bounds memory access, but
the failure is not a decode error surfaced to the caller). -/
theorem C4_amended (h : History) (ofs : Int)
    (hout : ofs < 0 ∨ (h.data.length : Int) ≤ ofs) :
    h.Get ofs = HGetRes.panicked := by
  unfold History.Get
  rw [if_pos hout]

/-- C4 witness: the amended claim at the fresh history and offset 1024. -/
theorem C4_witness :
    ((1024 : Int) < 0 ∨ ((NewHistory.data.length : Nat) : Int) ≤ 1024) ∧
    History.Get NewHistory 1024 = HGetRes.panicked :=
  ⟨Or.inr (by decide), C4_amended NewHistory 1024 (Or.inr (by decide))⟩

/-- C5 counterexample: the claim says that after a successful `Align` the next
read starts at a bit position that is a multiple of 32; but `Align` moves only
the byte offset and leaves the intra-byte bit cursor untouched.  Reachable
state: read 13 bits (a control word's worth) from a 4-byte input, then align —
the align succeeds but the cursor ends at bit position 37. -/
theorem C5_counterexample :
    Input.Get (NewInput [0, 0, 0, 0]) 13 = GetRes.ok 0 ⟨[0, 0, 0, 0], 1, 3⟩ ∧
    Input.Align ⟨[0, 0, 0, 0], 1, 3⟩ = some ⟨[0, 0, 0, 0], 4, 3⟩ ∧
    Input.pos ⟨[0, 0, 0, 0], 4, 3⟩ % 32 ≠ 0 :=
  ⟨by decide, by decide, by decide⟩

/-- Exact characterization of the `Align` byte-offset loop: starting from
`ofs ≤ len` with enough fuel, it stops at the next 4-byte boundary
(the least multiple of 4 at or after `ofs`) or at the end of the data,
whichever comes first. -/
theorem alignLoop_char (len : Nat) :
    ∀ f ofs, ofs ≤ len → (4 - ofs % 4) % 4 ≤ f →
      alignLoop len ofs f = min ((ofs + 3) / 4 * 4) len
  | 0, ofs, hle, hf => by
    simp only [alignLoop]
    omega
  | f + 1, ofs, hle, hf => by
    simp only [alignLoop]
    split
    · next hcond =>
      rw [alignLoop_char len f (ofs + 1) (by omega) (by omega)]
      omega
    · next hcond =>
      omega

/-- `Input.Align` fails precisely when the data ends before the next 4-byte
boundary, and otherwise lands exactly on that boundary. -/
theorem align_char (i : Input) (hofs : i.ofs ≤ i.data.length) :
    (i.data.length < (i.ofs + 3) / 4 * 4 → i.Align = none) ∧
    ((i.ofs + 3) / 4 * 4 ≤ i.data.length →
      i.Align = some ⟨i.data, (i.ofs + 3) / 4 * 4, i.bits⟩) := by
  have hc := alignLoop_char i.data.length 3 i.ofs hofs (by omega)
  constructor
  · intro hlt
    unfold Input.Align
    rw [hc, if_pos (by omega)]
  · intro hle
    unfold Input.Align
    rw [hc]
    have hmin : min ((i.ofs + 3) / 4 * 4) i.data.length = (i.ofs + 3) / 4 * 4 := by
      omega
    rw [hmin, if_neg (by omega)]

/-- C5 amended: `Input.Align` advances the byte offset forward to the next
4-byte boundary — the least multiple of 4 at or after the current offset —
skipping the intervening bytes without interpreting them, and fails with
TruncatedInput if the buffer ends before that boundary (and only then); when
the byte offset is already a multiple of 4, `Align` is a no-op.  The
intra-byte bit cursor is left unchanged by the source, so after a successful
`Align` the next read starts at a bit position that is a multiple of 32
precisely when the cursor already sat at a byte boundary (`bits = 8`). -/
theorem C5_align_amended (i : Input) (hb1 : 1 ≤ i.bits) (hb8 : i.bits ≤ 8)
    (hofs : i.ofs ≤ i.data.length) :
    (∀ i2, i.Align = some i2 →
      i2.data = i.data ∧ i2.bits = i.bits ∧ i2.ofs = (i.ofs + 3) / 4 * 4 ∧
        i2.ofs % 4 = 0 ∧ i.ofs ≤ i2.ofs ∧ i2.ofs < i.ofs + 4 ∧
        i2.ofs ≤ i.data.length ∧ (i.ofs % 4 = 0 → i2 = i) ∧
        (i2.pos % 32 = 0 ↔ i.bits = 8)) ∧
    (i.Align = none ↔ i.data.length < (i.ofs + 3) / 4 * 4) := by
  have hc := align_char i hofs
  constructor
  · intro i2 hal
    by_cases hle : (i.ofs + 3) / 4 * 4 ≤ i.data.length
    · have hsome := hc.2 hle
      rw [hal] at hsome
      have hi2 : i2 = ⟨i.data, (i.ofs + 3) / 4 * 4, i.bits⟩ := by
        simpa using hsome
      subst hi2
      dsimp only
      refine ⟨rfl, rfl, rfl, by omega, by omega, by omega, hle, ?_, ?_⟩
      · intro h0
        have he : (i.ofs + 3) / 4 * 4 = i.ofs := by omega
        show Input.mk i.data ((i.ofs + 3) / 4 * 4) i.bits = i
        rw [he]
      · simp only [Input.pos]
        omega
    · have hnone := hc.1 (by omega)
      rw [hal] at hnone
      exact absurd hnone (by simp)
  · constructor
    · intro hal
      by_cases hle : (i.ofs + 3) / 4 * 4 ≤ i.data.length
      · have hsome := hc.2 hle
        rw [hal] at hsome
        exact absurd hsome (by simp)
      · omega
    · intro hlt
      exact hc.1 hlt

/-- C5 witness: the amended claim at the reachable mid-byte state
`⟨[0,0,0,0], 1, 3⟩` (left by a 13-bit control word), whose align succeeds,
lands on byte offset 4 — the next 4-byte boundary — and keeps the bit cursor
at 3, so the resulting bit position 37 is not a multiple of 32. -/
theorem C5_witness :
    (1 ≤ (Input.mk [0, 0, 0, 0] 1 3).bits ∧
      (Input.mk [0, 0, 0, 0] 1 3).bits ≤ 8 ∧
      (Input.mk [0, 0, 0, 0] 1 3).ofs ≤ (Input.mk [0, 0, 0, 0] 1 3).data.length ∧
      (Input.mk [0, 0, 0, 0] 1 3).Align = some (Input.mk [0, 0, 0, 0] 4 3)) ∧
    ((Input.mk [0, 0, 0, 0] 4 3).data = (Input.mk [0, 0, 0, 0] 1 3).data ∧
      (Input.mk [0, 0, 0, 0] 4 3).bits = (Input.mk [0, 0, 0, 0] 1 3).bits ∧
      (Input.mk [0, 0, 0, 0] 4 3).ofs =
        ((Input.mk [0, 0, 0, 0] 1 3).ofs + 3) / 4 * 4 ∧
      (Input.mk [0, 0, 0, 0] 4 3).ofs % 4 = 0 ∧
      (Input.mk [0, 0, 0, 0] 1 3).ofs ≤ (Input.mk [0, 0, 0, 0] 4 3).ofs ∧
      (Input.mk [0, 0, 0, 0] 4 3).ofs < (Input.mk [0, 0, 0, 0] 1 3).ofs + 4 ∧
      (Input.mk [0, 0, 0, 0] 4 3).ofs ≤ (Input.mk [0, 0, 0, 0] 1 3).data.length ∧
      ((Input.mk [0, 0, 0, 0] 1 3).ofs % 4 = 0 →
        Input.mk [0, 0, 0, 0] 4 3 = Input.mk [0, 0, 0, 0] 1 3) ∧
      ((Input.mk [0, 0, 0, 0] 4 3).pos % 32 = 0 ↔
        (Input.mk [0, 0, 0, 0] 1 3).bits = 8)) :=
  ⟨⟨by decide, by decide, by decide, by decide⟩,
    (C5_align_amended (Input.mk [0, 0, 0, 0] 1 3) (by decide) (by decide)
      (by decide)).1 (Input.mk [0, 0, 0, 0] 4 3) (by decide)⟩


/-- C6: a Scheme-1 copy-pointer's match count equals `base + extra` with the
unary ones count mapping 0→(2,1), 1→(4,2), 2→(8,3), 3→(16,4), 4→(32,8);
every value from 2 through 271 is expressible and accepted (never rejected as
InvalidMatchCount), and any decoded match count greater than 271 fails with
the InvalidMatchCount error. -/
theorem C6_match_count :
    (matchBase 0 = 2 ∧ matchExtraBits 0 = 1) ∧
    (matchBase 1 = 4 ∧ matchExtraBits 1 = 2) ∧
    (matchBase 2 = 8 ∧ matchExtraBits 2 = 3) ∧
    (matchBase 3 = 16 ∧ matchExtraBits 3 = 4) ∧
    (matchBase 4 = 32 ∧ matchExtraBits 4 = 8) ∧
    (∀ n, 2 ≤ n → n ≤ 271 →
      ∃ ones extra, ones ≤ 4 ∧ extra < 2 ^ matchExtraBits ones ∧
        matchBase ones + extra = n) ∧
    (∀ (sch : Scheme) (i : Input) (h : History) (res : List Nat) (mc : Nat)
        (i2 : Input), readMatchCount i = .ok mc i2 → 271 < mc →
      decodeCopy sch i h res = .done (.invalidMatchCount mc)) ∧
    (∀ (sch : Scheme) (i : Input) (h : History) (res : List Nat) (mc : Nat)
        (i2 : Input) (m : Nat), readMatchCount i = .ok mc i2 → mc ≤ 271 →
      decodeCopy sch i h res ≠ .done (.invalidMatchCount m)) := by
  refine ⟨⟨rfl, rfl⟩, ⟨rfl, rfl⟩, ⟨rfl, rfl⟩, ⟨rfl, rfl⟩, ⟨rfl, rfl⟩, ?_, ?_, ?_⟩
  · intro n h2 h271
    by_cases c0 : n < 4
    · exact ⟨0, n - 2, by omega,
        by rw [show (2 : Nat) ^ matchExtraBits 0 = 2 from rfl]; omega,
        by rw [show matchBase 0 = 2 from rfl]; omega⟩
    by_cases c1 : n < 8
    · exact ⟨1, n - 4, by omega,
        by rw [show (2 : Nat) ^ matchExtraBits 1 = 4 from rfl]; omega,
        by rw [show matchBase 1 = 4 from rfl]; omega⟩
    by_cases c2 : n < 16
    · exact ⟨2, n - 8, by omega,
        by rw [show (2 : Nat) ^ matchExtraBits 2 = 8 from rfl]; omega,
        by rw [show matchBase 2 = 8 from rfl]; omega⟩
    by_cases c3 : n < 32
    · exact ⟨3, n - 16, by omega,
        by rw [show (2 : Nat) ^ matchExtraBits 3 = 16 from rfl]; omega,
        by rw [show matchBase 3 = 16 from rfl]; omega⟩
    · exact ⟨4, n - 32, by omega,
        by rw [show (2 : Nat) ^ matchExtraBits 4 = 256 from rfl]; omega,
        by rw [show matchBase 4 = 32 from rfl]; omega⟩
  · exact fun sch i h res mc i2 hok hgt => decodeCopy_reject sch i h res mc i2 hok hgt
  · exact fun sch i h res mc i2 m hok hle => decodeCopy_accept sch i h res mc i2 hok hle m

/-- C6 witness: the bits `1111 11110000` decode to ones = 4, extra = 240,
match count 32 + 240 = 272 > 271, and the copy-pointer decoder rejects it
with InvalidMatchCount 272. -/
theorem C6_witness :
    readMatchCount (NewInput [255, 0]) = MCRes.ok 272 ⟨[255, 0], 1, 4⟩ ∧
    decodeCopy Scheme.s1 (NewInput [255, 0]) NewHistory [] =
      StepRes.done (Result.invalidMatchCount 272) :=
  ⟨by decide,
    C6_match_count.2.2.2.2.2.2.1 Scheme.s1 (NewInput [255, 0]) NewHistory []
      272 ⟨[255, 0], 1, 4⟩ (by decide) (by decide)⟩

/-- C7: when an EndMarker control word (code 15) is decoded with empty output
so far, `Decompress` terminates with the distinguished end-of-stream signal
(`io.EOF`), which is neither a decode error nor an empty successful record;
with non-empty output the EndMarker is a no-op and scanning continues. -/
theorem C7_end_marker (d : DState) (i2 : Input)
    (hc : d.input.IsCtrl = some true)
    (hok : d.input.Ctrl = CtrlRes.ok 15 i2) :
    (d.result = [] → step d = .done .eof) ∧
    (d.result ≠ [] → step d = .cont { d with input := i2 }) := by
  constructor
  · intro hres
    simp [step, hc, hok, hres]
  · intro hres
    simp [step, hc, hok, hres]

/-- C7 witness: the 2-byte buffer `0xFF 0xF8` is exactly a leading EndMarker
control word (9-bit marker + code 1111); with empty output the step
terminates with the end-of-stream signal. -/
theorem C7_witness :
    (initState [255, 248]).input.IsCtrl = some true ∧
    (initState [255, 248]).input.Ctrl = CtrlRes.ok 15 ⟨[255, 248], 1, 3⟩ ∧
    (initState [255, 248]).result = [] ∧
    step (initState [255, 248]) = StepRes.done Result.eof :=
  ⟨by decide, by decide, rfl,
    (C7_end_marker (initState [255, 248]) ⟨[255, 248], 1, 3⟩ (by decide)
      (by decide)).1 rfl⟩

/-- C8: whenever `is_control()` is true, reading the control word consumes the
9-bit marker and then 4 code bits (13 bits in total), and an undefined 4-bit
code (7–14) or the unhandled FileMark code (3) is surfaced as an
InvalidControlSymbol error, never silently ignored or mapped to a valid
control word.  (A marker mismatch is impossible under the `is_control()`
hypothesis, since `Ctrl` re-reads the same 9 bits the peek saw.) -/
theorem C8_control_codes (d : DState) (c : Nat) (i2 : Input)
    (hb1 : 1 ≤ d.input.bits) (hb8 : d.input.bits ≤ 8)
    (hofs : d.input.ofs ≤ d.input.data.length)
    (hc : d.input.IsCtrl = some true)
    (hok : d.input.Ctrl = CtrlRes.ok c i2) :
    i2.pos = d.input.pos + 13 ∧
    (c = 3 ∨ (7 ≤ c ∧ c ≤ 14) → step d = .done (.invalidControl c)) := by
  constructor
  · exact ctrl_ok_pos13 d.input c i2 hb1 hb8 hofs hc hok
  · intro hcc
    have h0 : ¬c = 0 := by omega
    have h1 : ¬c = 1 := by omega
    have h2 : ¬c = 2 := by omega
    have h4 : ¬c = 4 := by omega
    have h5 : ¬c = 5 := by omega
    have h6 : ¬c = 6 := by omega
    have h15 : ¬c = 15 := by omega
    simp [step, hc, hok, h0, h1, h2, h4, h5, h6, h15]

/-- C8 witness: the buffer `0xFF 0x98` is a control word with code 3
(FileMark); the control word occupies 13 bits and the step fails with
InvalidControlSymbol. -/
theorem C8_witness :
    (1 ≤ (initState [255, 152]).input.bits ∧
      (initState [255, 152]).input.bits ≤ 8 ∧
      (initState [255, 152]).input.ofs ≤ (initState [255, 152]).input.data.length ∧
      (initState [255, 152]).input.IsCtrl = some true ∧
      (initState [255, 152]).input.Ctrl = CtrlRes.ok 3 ⟨[255, 152], 1, 3⟩) ∧
    Input.pos ⟨[255, 152], 1, 3⟩ = (initState [255, 152]).input.pos + 13 ∧
    step (initState [255, 152]) = StepRes.done (Result.invalidControl 3) :=
  ⟨⟨by decide, by decide, by decide, by decide, by decide⟩,
    (C8_control_codes (initState [255, 152]) 3 ⟨[255, 152], 1, 3⟩ (by decide)
      (by decide) (by decide) (by decide) (by decide)).1,
    (C8_control_codes (initState [255, 152]) 3 ⟨[255, 152], 1, 3⟩ (by decide)
      (by decide) (by decide) (by decide) (by decide)).2 (Or.inl rfl)⟩

/-- C9: for every input, the `Decompress` main loop terminates: each
continuing iteration consumes at least 9 bits, so `data.length + 2`
iterations always reach a terminal result — the fuel is never exhausted and
`Decompress` always returns an answer. -/
theorem C9_terminates (data : List Nat) : ∃ r, Decompress data = some r := by
  cases hd : Decompress data with
  | some r => exact ⟨r, rfl⟩
  | none =>
    exfalso
    refine loop_no_none (data.length + 2) (initState data) ?_ ?_ ?_ ?_ hd
    · show (1 : Nat) ≤ 8
      omega
    · show (8 : Nat) ≤ 8
      omega
    · show (0 : Nat) ≤ data.length
      omega
    · show 8 * data.length + 16 ≤ 9 * (data.length + 2) + (8 * 0 + (8 - 8))
      omega

/-- C10: for every byte input, every offset `Decompress` passes to
`History.Get` lies in `[0, 1024)` — the displacement is a 10-bit value and the
returned next offset wraps at 1024 — so the process-abort branch of
`History.Get` is unreachable from `Decompress`. -/
theorem C10_no_displacement_panic (data : List Nat)
    (hbytes : ∀ b ∈ data, b < 256) :
    Decompress data ≠ some Result.panicDisplacement := by
  refine loop_no_pd (data.length + 2) (initState data) hbytes ?_ ?_ ?_ ?_
  · show (1 : Nat) ≤ 8
    omega
  · show (8 : Nat) ≤ 8
    omega
  · show (0 : Nat) ≤ data.length
    omega
  · show (List.replicate 1024 0).length = 1024
    simp

/-- C10 witness: a concrete byte input (a leading EndMarker buffer) on which
`Decompress` does not hit the displacement panic. -/
theorem C10_witness :
    (∀ b ∈ ([255, 248] : List Nat), b < 256) ∧
    Decompress [255, 248] ≠ some Result.panicDisplacement :=
  ⟨by decide, C10_no_displacement_panic [255, 248] (by decide)⟩
